import Mathlib

/-!
Verification of the `gdal_trace_outline` driver (gdal_trace_outline.cc) and of the
core raster-to-vector pipeline it orchestrates.  The driver source is embedded
directly; the core components it calls (mask tracer, rasterizer, point reducer,
beveler, excursion pincher, coordinate mappers) live outside the given sources and
are either kept abstract (fields of `CoreFns`) or modelled from the written
specification where a claim needs their behaviour.
-/

namespace TraceOutline

/-- Output coordinate systems (CS_XY / CS_EN / CS_LL from the driver). -/
inductive OutCS where
  | xy
  | en
  | ll
deriving DecidableEq, Repr

/-- A polygon ring: ordered point list, hole flag, and parent ring index
(negative means no parent, matching the C `parent_id >= 0` tests). -/
structure Ring where
  pts : List (ℚ × ℚ) := []
  isHole : Bool := false
  parentId : Int := -1
deriving DecidableEq, Inhabited, Repr

/-- Multipolygon: an ordered collection of rings. -/
structure Mpoly where
  rings : List Ring := []
deriving DecidableEq, Inhabited, Repr

/-- Dense 2D boolean mask, row-major, one entry per pixel. -/
structure BitGrid where
  w : Nat
  h : Nat
  data : List Bool
deriving DecidableEq, Repr

/-- Sum of cross products over the closed point cycle (shoelace accumulator). -/
def shoelace (pts : List (ℚ × ℚ)) : ℚ :=
  (pts.zip (pts.rotate 1)).foldl (fun acc pq => acc + (pq.1.1 * pq.2.2 - pq.2.1 * pq.1.2)) 0

/-- Modelled from the spec: `Ring::area()` (polygon.cc is not among the given
sources) — the derived signed area of a ring via the shoelace formula, positive
orientation for exterior rings. -/
def Ring.area (r : Ring) : ℚ := shoelace r.pts / 2

/-- Observable actions of one driver run, in program order. -/
inductive Event where
  | rasterOpened
  | maskRead
  | maskInvert
  | maskErode
  | traceRun (minRingArea : Int) (suppressHoles : Bool)
  | bevelRun
  | pinchRun
  | maskOutWrite (mp : Mpoly)
  | simplifyRun
  | mapRun (cs : OutCS)
  | emitShape
deriving DecidableEq, Repr

/-- The five pipeline stages named by the spec (tracer, beveler, pincher,
simplifier, coordinate mapper). -/
def Event.isStage : Event → Bool
  | .traceRun _ _ => true
  | .bevelRun => true
  | .pinchRun => true
  | .simplifyRun => true
  | .mapRun _ => true
  | _ => false

/-- Coordinate-mapper events. -/
def Event.isMap : Event → Bool
  | .mapRun _ => true
  | _ => false

/-- Restriction of an event log to the five pipeline stages. -/
def stageSeq (evs : List Event) : List Event := evs.filter Event.isStage

/-- The core components called by the driver but defined outside it
(mask-tracer.cc, beveler.cc, excursion_pincher2.cc, dp.cc, polygon.cc, mask.cc). -/
structure CoreFns where
  traceMask : BitGrid → Nat → Nat → Int → Bool → Mpoly
  bevelSelfIntersections : Mpoly → ℚ → Mpoly
  pinchExcursions2 : Mpoly → Mpoly
  computeReducedPointset : Mpoly → ℚ → Mpoly
  splitMpolyToPolys : Mpoly → List Mpoly
  xy2en : Mpoly → Mpoly
  xy2llWithInterp : Mpoly → ℚ → Mpoly
  invertGrid : BitGrid → BitGrid
  erodeGrid : BitGrid → BitGrid

/-- The scan of `calc_ring_from_mask` selecting the biggest ring:
`biggest_area` starts at 0, strict improvement updates `best_idx`. -/
def bestScan (rings : List Ring) : ℚ × Nat :=
  rings.enum.foldl (fun acc ir => if ir.2.area > acc.1 then (ir.2.area, ir.1) else acc) (0, 0)

/-- Index of the ring selected by the major-ring scan. -/
def bestRingIdx (rings : List Ring) : Nat := (bestScan rings).2

/-- The ring selected by the major-ring scan. -/
def bestRing (mp : Mpoly) : Ring := mp.rings.getD (bestRingIdx mp.rings) default

/-- The major-ring-only reduction of `calc_ring_from_mask` (lines 625-642):
with more than one ring, pick the scan winner; a winner with a parent is a
fatal internal error; otherwise the result is just that ring. -/
def majorRingStage (majorRingOnly : Bool) (mp : Mpoly) : Except String Mpoly :=
  if majorRingOnly ∧ 1 < mp.rings.length then
    if 0 ≤ (bestRing mp).parentId then
      .error "largest ring should not have a parent"
    else
      .ok ⟨[bestRing mp]⟩
  else
    .ok mp

/-- The bevel step of `calc_ring_from_mask` (lines 660-664):
run only for a nonempty Mpoly and a positive bevel size. -/
def bevelStage (F : CoreFns) (bevelSize : ℚ) (mp : Mpoly) : List Event × Mpoly :=
  if mp.rings.length ≠ 0 ∧ 0 < bevelSize then
    ([.bevelRun], F.bevelSelfIntersections mp bevelSize)
  else
    ([], mp)

/-- `calc_ring_from_mask` (lines 569-667): force `no_donuts` in major-ring mode,
trace, apply the major-ring reduction, then bevel. -/
def calcRingFromMask (F : CoreFns) (mask : BitGrid) (w h : Nat)
    (majorRingOnly noDonuts : Bool) (minRingArea : Int) (bevelSize : ℚ) :
    List Event × Except String Mpoly :=
  let nd := majorRingOnly || noDonuts
  let mp := F.traceMask mask w h minRingArea nd
  let evT : List Event := [.traceRun minRingArea nd]
  match majorRingStage majorRingOnly mp with
  | .error e => (evT, .error e)
  | .ok mp2 =>
    let bl := bevelStage F bevelSize mp2
    (evT ++ bl.1, .ok bl.2)

/-- The excursion-pinching step of `main` (lines 449-453). -/
def pinchStage (F : CoreFns) (doPinch : Bool) (mp : Mpoly) : List Event × Mpoly :=
  if mp.rings.length ≠ 0 ∧ doPinch then ([.pinchRun], F.pinchExcursions2 mp) else ([], mp)

/-- The point-reduction step of `main` (lines 459-462). -/
def reduceStage (F : CoreFns) (tol : ℚ) (mp : Mpoly) : List Event × Mpoly :=
  if mp.rings.length ≠ 0 ∧ 0 < tol then
    ([.simplifyRun], F.computeReducedPointset mp tol)
  else
    ([], mp)

/-- Geometry emission for one shape and one output (lines 491-540): map the copy
into the output coordinate space when needed, then emit. -/
def emitForOutput (cs : OutCS) : List Event :=
  match cs with
  | .xy => [.emitShape]
  | .en => [.mapRun .en, .emitShape]
  | .ll => [.mapRun .ll, .emitShape]

/-- Parsed driver options with their defaults (lines 176-194). -/
structure Opts where
  classifyMode : Bool := false
  splitPolys : Bool := false
  curOutCS : Option OutCS := none
  geomOutputs : List OutCS := []
  maskOutFn : Bool := false
  majorRingOnly : Bool := false
  noDonuts : Bool := false
  minRingArea : Int := 0
  reductionTolerance : ℚ := 2
  doErosion : Bool := false
  doInvert : Bool := false
  llprojToler : ℚ := 1
  bevelSize : ℚ := mkRat 1 10
  doPinchExcursions : Bool := false
  hasInputFile : Bool := false
  verbose : Nat := 0
  numBands : Nat := 0
deriving DecidableEq, Repr

/-- Geometry writing for one feature polygon (lines 478-544). -/
def outputStage (F : CoreFns) (o : Opts) (mp : Mpoly) : List Event :=
  if mp.rings.length ≠ 0 ∧ o.geomOutputs.length ≠ 0 then
    let shapes := if o.splitPolys then F.splitMpolyToPolys mp else [mp]
    shapes.flatMap (fun _s => o.geomOutputs.flatMap emitForOutput)
  else
    []

/-- The in-place mask preparation of the class loop (lines 437-443):
optional inversion followed by optional erosion. -/
def preMask (F : CoreFns) (o : Opts) (mask0 : BitGrid) : BitGrid :=
  let mask1 := if o.doInvert then F.invertGrid mask0 else mask0
  if o.doErosion then F.erodeGrid mask1 else mask1

/-- The events of the mask preparation. -/
def preMaskEvents (o : Opts) : List Event :=
  (if o.doInvert then [.maskInvert] else []) ++ (if o.doErosion then [.maskErode] else [])

/-- One iteration of the per-class loop of `main` (lines 437-545):
invert, erode, trace+bevel, pinch, mask export, reduce, geometry output. -/
def classPass (F : CoreFns) (o : Opts) (w h : Nat) (mask0 : BitGrid) :
    List Event × Except String Unit :=
  let evPre := preMaskEvents o
  let tr := calcRingFromMask F (preMask F o mask0) w h
    o.majorRingOnly o.noDonuts o.minRingArea o.bevelSize
  match tr.2 with
  | .error e => (evPre ++ tr.1, .error e)
  | .ok mp0 =>
    let pin := pinchStage F o.doPinchExcursions mp0
    let evMask : List Event := if o.maskOutFn then [.maskOutWrite pin.2] else []
    let red := reduceStage F o.reductionTolerance pin.2
    let evOut := outputStage F o red.2
    (evPre ++ tr.1 ++ pin.1 ++ evMask ++ red.1 ++ evOut, .ok ())

/-- Command-line tokens accepted by the driver, with their values attached. -/
inductive Arg where
  | verbose
  | classifyFlag
  | report (fn : String)
  | band (b : Int)
  | erosion
  | invert
  | splitPolysFlag
  | wktOut (fn : String)
  | wkbOut (fn : String)
  | ogrOut (fn : String)
  | ogrFmt (s : String)
  | outCS (s : String)
  | maskOut (fn : String)
  | majorRing
  | noDonutsFlag
  | minRingArea (v : Int)
  | dpToler (v : ℚ)
  | bevelSize (v : ℚ)
  | pinchExcursions
  | llprojToler (v : ℚ)
  | help
  | inputFile (fn : String)
deriving DecidableEq, Repr

/-- The range check on `-bevel-size` (lines 271-272). -/
def bevelSizeCheck (v : ℚ) : Except String Unit :=
  if v < 0 ∨ 1 ≤ v then
    .error "-bevel-size must be in the range 0 <= bevel < 1"
  else
    .ok ()

/-- Recording of a geometry output (`add_geom_output`, lines 155-173): fatal if
no output coordinate system was selected yet. -/
def addGeomOutput (o : Opts) : Except String Opts :=
  match o.curOutCS with
  | none =>
    .error "must specify output coordinate system with -out-cs option before specifying output"
  | some cs => .ok { o with geomOutputs := o.geomOutputs ++ [cs] }

/-- One step of the argument-parsing loop (lines 202-289). -/
def parseStep (o : Opts) (a : Arg) : Except String Opts :=
  match a with
  | .verbose => .ok { o with verbose := o.verbose + 1 }
  | .classifyFlag => .ok { o with classifyMode := true }
  | .report _ => .ok o
  | .band _ => .ok { o with numBands := o.numBands + 1 }
  | .erosion => .ok { o with doErosion := true }
  | .invert => .ok { o with doInvert := true }
  | .splitPolysFlag => .ok { o with splitPolys := true }
  | .wktOut _ => addGeomOutput o
  | .wkbOut _ => addGeomOutput o
  | .ogrOut _ => addGeomOutput o
  | .ogrFmt _ => .ok o
  | .outCS s =>
    if s = "xy" then .ok { o with curOutCS := some .xy }
    else if s = "en" then .ok { o with curOutCS := some .en }
    else if s = "ll" then .ok { o with curOutCS := some .ll }
    else .error "unrecognized value for -out-cs option"
  | .maskOut _ => .ok { o with maskOutFn := true }
  | .majorRing => .ok { o with majorRingOnly := true }
  | .noDonutsFlag => .ok { o with noDonuts := true }
  | .minRingArea v => .ok { o with minRingArea := v }
  | .dpToler v => .ok { o with reductionTolerance := v }
  | .bevelSize v =>
    match bevelSizeCheck v with
    | .error e => .error e
    | .ok () => .ok { o with bevelSize := v }
  | .pinchExcursions => .ok { o with doPinchExcursions := true }
  | .llprojToler v => .ok { o with llprojToler := v }
  | .help => .error "usage"
  | .inputFile _ =>
    if o.hasInputFile then .error "usage" else .ok { o with hasInputFile := true }

/-- The whole argument-parsing loop. -/
def parseArgs (args : List Arg) : Except String Opts :=
  args.foldlM parseStep {}

/-- Post-parse validation (lines 291-304), in source order. -/
def validateOpts (ndvRanges : Nat) (o : Opts) : Except String Unit :=
  if ¬o.hasInputFile then .error "must specify filename of image"
  else if o.majorRingOnly ∧ o.minRingArea ≠ 0 then
    .error "-major-ring and -min-ring-area options cannot both be used at the same time"
  else if o.majorRingOnly ∧ o.noDonuts then
    .error "-major-ring and -no-donuts options cannot both be used at the same time"
  else if o.classifyMode ∧ ndvRanges ≠ 0 then
    .error "-classify option is not compatible with NDV options"
  else if o.classifyMode ∧ o.doInvert then
    .error "-classify option is not compatible with -invert option"
  else if o.classifyMode ∧ o.maskOutFn then
    .error "-classify option is not compatible with -mask-out option"
  else .ok ()

/-- External collaborators of `main`: raster opening, georeferencing, no-data
ranges, and the per-class masks supplied by the mask builder. -/
structure Ext where
  openOk : Bool := true
  ndvRanges : Nat := 0
  georefW : Nat := 0
  georefH : Nat := 0
  fwdAffine : Bool := true
  fwdXform : Bool := true
  mask : BitGrid := ⟨0, 0, []⟩
  usageArray : Nat → Bool := fun _ => false
  maskForClass : Nat → BitGrid := fun _ => ⟨0, 0, []⟩

/-- Transform-availability check for one geometry output (lines 329-333). -/
def checkGeomOutput (E : Ext) (cs : OutCS) : Except String Unit :=
  if (cs = .en ∨ cs = .ll) ∧ E.fwdAffine = false then .error "missing affine transform"
  else if cs = .ll ∧ E.fwdXform = false then .error "missing coordinate transform"
  else .ok ()

/-- The loop over geometry outputs checking transform availability (lines 328-334). -/
def checkGeomOutputs (E : Ext) : List OutCS → Except String Unit
  | [] => .ok ()
  | cs :: rest =>
    match checkGeomOutput E cs with
    | .error e => .error e
    | .ok () => checkGeomOutputs E rest

/-- Sequential execution of the class passes, stopping at the first fatal error. -/
def runPasses (F : CoreFns) (o : Opts) (w h : Nat) : List BitGrid → List Event × Except String Unit
  | [] => ([], .ok ())
  | m :: rest =>
    match classPass F o w h m with
    | (ev, .error e) => (ev, .error e)
    | (ev, .ok ()) =>
      let r := runPasses F o w h rest
      (ev ++ r.1, r.2)

/-- The masks processed by the class loop (lines 419-435): every used class value
in classify mode, the single prepared mask otherwise. -/
def passMasks (E : Ext) (o : Opts) : List BitGrid :=
  if o.classifyMode then
    ((List.range 256).filter (fun c => E.usageArray c)).map E.maskForClass
  else
    [E.mask]

/-- The part of `main` after argument parsing: validate, open the raster, check
output transforms, read the mask, run the per-class pipeline. -/
def runMainOpts (F : CoreFns) (E : Ext) (o : Opts) : List Event × Except String Unit :=
  match validateOpts E.ndvRanges o with
  | .error e => ([], .error e)
  | .ok _ =>
    if E.openOk = false then ([], .error "open failed")
    else
      match checkGeomOutputs E o.geomOutputs with
      | .error e => ([Event.rasterOpened], .error e)
      | .ok _ =>
        if o.classifyMode ∧ 1 < o.numBands then
          ([Event.rasterOpened], .error "only one band may be used in classify mode")
        else
          let r := runPasses F o E.georefW E.georefH (passMasks E o)
          ([Event.rasterOpened, Event.maskRead] ++ r.1, r.2)

/-- `main` (lines 175-567): parse the arguments, then run. -/
def runMain (F : CoreFns) (E : Ext) (args : List Arg) : List Event × Except String Unit :=
  match parseArgs args with
  | .error e => ([], .error e)
  | .ok o => runMainOpts F E o

/-! ### Concrete instantiations used by closed statements -/

/-- A triangle ring used in concrete instantiations. -/
def sampleRing : Ring := { pts := [(0, 0), (1, 0), (1, 1)] }

/-- A one-ring multipolygon used in concrete instantiations. -/
def sampleMp : Mpoly := ⟨[sampleRing]⟩

/-- A concrete instantiation of the external core components; theorems proved
about the driver quantify over arbitrary `CoreFns`, and these values only serve
to evaluate closed statements at a definite point. -/
def sampleFns : CoreFns where
  traceMask := fun _ _ _ _ _ => sampleMp
  bevelSelfIntersections := fun mp _ => mp
  pinchExcursions2 := fun mp => mp
  computeReducedPointset := fun mp _ => mp
  splitMpolyToPolys := fun mp => [mp]
  xy2en := fun mp => mp
  xy2llWithInterp := fun mp _ => mp
  invertGrid := fun g => g
  erodeGrid := fun g => g

/-! ### Event-shape helper lemmas -/

theorem bevelStage_events (F : CoreFns) (b : ℚ) (mp : Mpoly) :
    (bevelStage F b mp).1 = [] ∨ (bevelStage F b mp).1 = [.bevelRun] := by
  unfold bevelStage
  split
  · exact .inr rfl
  · exact .inl rfl

theorem pinchStage_events (F : CoreFns) (d : Bool) (mp : Mpoly) :
    (pinchStage F d mp).1 = [] ∨ (pinchStage F d mp).1 = [.pinchRun] := by
  unfold pinchStage
  split
  · exact .inr rfl
  · exact .inl rfl

theorem reduceStage_events (F : CoreFns) (t : ℚ) (mp : Mpoly) :
    (reduceStage F t mp).1 = [] ∨ (reduceStage F t mp).1 = [.simplifyRun] := by
  unfold reduceStage
  split
  · exact .inr rfl
  · exact .inl rfl

theorem calcRing_events (F : CoreFns) (mask : BitGrid) (w h : Nat)
    (mro nd : Bool) (minA : Int) (bev : ℚ) :
    (calcRingFromMask F mask w h mro nd minA bev).1 =
      [Event.traceRun minA (mro || nd)] ∨
    (calcRingFromMask F mask w h mro nd minA bev).1 =
      [Event.traceRun minA (mro || nd), .bevelRun] := by
  unfold calcRingFromMask
  rcases h : majorRingStage mro (F.traceMask mask w h minA (mro || nd)) with e | mp2
  · exact .inl (by simp [h])
  · rcases bevelStage_events F bev mp2 with hb | hb
    · exact .inl (by simp [h, hb])
    · exact .inr (by simp [h, hb])

theorem outputStage_mem (F : CoreFns) (o : Opts) (mp : Mpoly) (e : Event)
    (he : e ∈ outputStage F o mp) : e = .emitShape ∨ ∃ cs, e = .mapRun cs := by
  unfold outputStage at he
  split at he
  · simp only [List.mem_flatMap] at he
    obtain ⟨s, _, cs, _, hcs⟩ := he
    rcases cs with _ | _ | _ <;> simp only [emitForOutput, List.mem_cons] at hcs <;>
      rcases hcs with h | h <;> simp_all
  · simp at he

/-! ### Claim C3 -/

/-- C3: with `bevel_fraction = 0` the beveling pass is disabled and the output
Mpoly equals the input; with an empty Mpoly the beveler is never invoked
(no bevel event, identity result), for any beveler implementation. -/
theorem bevel_zero_noop_and_empty_skip (F : CoreFns) (mp : Mpoly) (b : ℚ) :
    (b = 0 → bevelStage F b mp = ([], mp)) ∧
    (mp.rings = [] → bevelStage F b mp = ([], mp)) := by
  constructor
  · rintro rfl
    simp [bevelStage]
  · intro h
    simp [bevelStage, h]

/-- Witness for C3 at concrete inputs. -/
theorem bevel_zero_noop_and_empty_skip_witness :
    bevelStage sampleFns 0 sampleMp = ([], sampleMp) ∧
    bevelStage sampleFns (mkRat 1 2) ⟨[]⟩ = ([], (⟨[]⟩ : Mpoly)) :=
  ⟨(bevel_zero_noop_and_empty_skip sampleFns sampleMp 0).1 rfl,
   (bevel_zero_noop_and_empty_skip sampleFns ⟨[]⟩ (mkRat 1 2)).2 rfl⟩

/-! ### Claim C4 -/

/-- C4: point reduction at tolerance 0 is skipped by the driver, so the
multipolygon that reaches the output stage is identical to the one produced by
the preceding stage, for any reducer implementation. -/
theorem reduce_tolerance_zero_noop (F : CoreFns) (mp : Mpoly) :
    reduceStage F 0 mp = ([], mp) := by
  simp [reduceStage]

/-! ### Claim C9 -/

/-- C9: in major-ring-only mode the driver forces hole suppression before
tracing: the tracer is always invoked with `suppress_holes = true`, whatever the
user-level `no_donuts` flag was. -/
theorem major_ring_forces_no_donuts (F : CoreFns) (mask : BitGrid) (w h : Nat)
    (noDonuts : Bool) (minA : Int) (bev : ℚ) :
    ∃ rest, (calcRingFromMask F mask w h true noDonuts minA bev).1 =
      Event.traceRun minA true :: rest := by
  rcases calcRing_events F mask w h true noDonuts minA bev with h | h
  · exact ⟨[], by simpa using h⟩
  · exact ⟨[.bevelRun], by simpa using h⟩

/-! ### Claim C1 -/

theorem stageSeq_append (a b : List Event) : stageSeq (a ++ b) = stageSeq a ++ stageSeq b :=
  List.filter_append a b

theorem stageSeq_preMask (o : Opts) : stageSeq (preMaskEvents o) = [] := by
  unfold preMaskEvents stageSeq
  cases o.doInvert <;> cases o.doErosion <;> rfl

theorem stageSeq_ite_maskout (c : Bool) (mp : Mpoly) :
    stageSeq (if c then [Event.maskOutWrite mp] else []) = [] := by
  cases c <;> rfl

theorem stageSeq_outputStage_maps (F : CoreFns) (o : Opts) (mp : Mpoly) :
    ∀ e ∈ stageSeq (outputStage F o mp), e.isMap = true := by
  intro e he
  simp only [stageSeq, List.mem_filter] at he
  rcases outputStage_mem F o mp e he.1 with rfl | ⟨cs, rfl⟩
  · simp [Event.isStage] at he
  · rfl

/-- Options of a run with every optional stage enabled (pinching on, positive
tolerance and bevel size, one projected geometry output). -/
def o1 : Opts :=
  { doPinchExcursions := true, curOutCS := some .en, geomOutputs := [.en],
    hasInputFile := true }

/-- C1 counterexample: with every optional stage enabled, the stages actually
run in the order tracer, beveler, pincher, simplifier, mapper — not in the
claimed order tracer, pincher, simplifier, beveler, mapper. -/
theorem pipeline_stage_order_counterexample :
    stageSeq (classPass sampleFns o1 5 5 ⟨5, 5, List.replicate 25 true⟩).1 =
      [Event.traceRun 0 false, .bevelRun, .pinchRun, .simplifyRun, .mapRun .en] ∧
    stageSeq (classPass sampleFns o1 5 5 ⟨5, 5, List.replicate 25 true⟩).1 ≠
      [Event.traceRun 0 false, .pinchRun, .simplifyRun, .bevelRun, .mapRun .en] := by
  constructor
  · rfl
  · decide

/-- C1 (amended): for every processed mask the stages run in the order
ContourTracer, then (if run) Beveler, then (if run) ExcursionPincher, then
(if run) Simplifier, then only CoordinateMapper invocations interleaved with
emission. -/
theorem pipeline_stage_order (F : CoreFns) (o : Opts) (w h : Nat) (mask : BitGrid) :
    ∃ (b p s m : List Event),
      (b = [] ∨ b = [.bevelRun]) ∧ (p = [] ∨ p = [.pinchRun]) ∧
      (s = [] ∨ s = [.simplifyRun]) ∧ (∀ e ∈ m, e.isMap = true) ∧
      stageSeq (classPass F o w h mask).1 =
        Event.traceRun o.minRingArea (o.majorRingOnly || o.noDonuts) :: (b ++ p ++ s ++ m) := by
  have htr := calcRing_events F (preMask F o mask) w h
    o.majorRingOnly o.noDonuts o.minRingArea o.bevelSize
  simp only [classPass]
  rcases hm : (calcRingFromMask F (preMask F o mask) w h
      o.majorRingOnly o.noDonuts o.minRingArea o.bevelSize).2 with e | mp0
  · refine ⟨(stageSeq (calcRingFromMask F (preMask F o mask) w h
        o.majorRingOnly o.noDonuts o.minRingArea o.bevelSize).1).tail, [], [], [],
      ?_, .inl rfl, .inl rfl, by simp, ?_⟩
    · rcases htr with h1 | h1 <;> rw [h1] <;> simp [stageSeq, Event.isStage]
    · rcases htr with h1 | h1 <;> rw [h1] <;>
        simp only [stageSeq_append, stageSeq_preMask, List.nil_append, List.append_nil] <;>
        simp [stageSeq, Event.isStage]
  · refine ⟨(stageSeq (calcRingFromMask F (preMask F o mask) w h
        o.majorRingOnly o.noDonuts o.minRingArea o.bevelSize).1).tail,
      stageSeq (pinchStage F o.doPinchExcursions mp0).1,
      stageSeq (reduceStage F o.reductionTolerance (pinchStage F o.doPinchExcursions mp0).2).1,
      stageSeq (outputStage F o
        (reduceStage F o.reductionTolerance (pinchStage F o.doPinchExcursions mp0).2).2),
      ?_, ?_, ?_, stageSeq_outputStage_maps F o _, ?_⟩
    · rcases htr with h1 | h1 <;> rw [h1] <;> simp [stageSeq, Event.isStage]
    · rcases pinchStage_events F o.doPinchExcursions mp0 with h2 | h2 <;> rw [h2] <;>
        simp [stageSeq, Event.isStage]
    · rcases reduceStage_events F o.reductionTolerance
          (pinchStage F o.doPinchExcursions mp0).2 with h3 | h3 <;> rw [h3] <;>
        simp [stageSeq, Event.isStage]
    · rcases htr with h1 | h1 <;> rw [h1] <;>
        simp only [stageSeq_append, stageSeq_preMask, stageSeq_ite_maskout,
          List.nil_append, List.append_nil] <;>
        simp [stageSeq, Event.isStage]

/-! ### Claim C5 -/

theorem parse_error_of_bad_bevel (v : ℚ) (hbad : v < 0 ∨ 1 ≤ v) :
    ∀ (args : List Arg) (o : Opts), Arg.bevelSize v ∈ args →
      ∃ e, args.foldlM parseStep o = .error e := by
  intro args
  induction args with
  | nil => intro o hmem; simp at hmem
  | cons a rest ih =>
    intro o hmem
    rw [List.foldlM_cons]
    rcases List.mem_cons.mp hmem with rfl | hmem2
    · have hps : parseStep o (Arg.bevelSize v) =
          .error "-bevel-size must be in the range 0 <= bevel < 1" := by
        simp [parseStep, bevelSizeCheck, hbad]
      rw [hps]
      exact ⟨_, rfl⟩
    · rcases hps : parseStep o a with e | o2
      · exact ⟨e, rfl⟩
      · exact ih o2 hmem2

/-- C5: a supplied bevel-size value outside [0,1) makes the run terminate with an
error before any event (so before any output); any value inside [0,1) passes the
range check. -/
theorem bevel_size_range (F : CoreFns) (E : Ext) (args : List Arg) (v u : ℚ)
    (hmem : Arg.bevelSize v ∈ args) (hbad : v < 0 ∨ 1 ≤ v) (hu : 0 ≤ u ∧ u < 1) :
    ((runMain F E args).1 = [] ∧ ∃ e, (runMain F E args).2 = .error e) ∧
      bevelSizeCheck u = .ok () := by
  obtain ⟨e, he⟩ := parse_error_of_bad_bevel v hbad args {} hmem
  constructor
  · have hp : parseArgs args = .error e := he
    simp [runMain, hp]
  · have h1 : ¬(u < 0 ∨ 1 ≤ u) := by
      push_neg
      exact ⟨hu.1, hu.2⟩
    simp [bevelSizeCheck, h1]

/-- Witness for C5 at concrete inputs. -/
theorem bevel_size_range_witness :
    ((Arg.bevelSize 2 ∈ [Arg.bevelSize (2 : ℚ)]) ∧ ((2 : ℚ) < 0 ∨ 1 ≤ (2 : ℚ)) ∧
      (0 ≤ mkRat 1 2 ∧ mkRat 1 2 < 1)) ∧
    ((runMain sampleFns {} [Arg.bevelSize 2]).1 = [] ∧
      ∃ e, (runMain sampleFns {} [Arg.bevelSize 2]).2 = .error e) ∧
      bevelSizeCheck (mkRat 1 2) = .ok () :=
  ⟨⟨by decide, by decide, by decide⟩,
    bevel_size_range sampleFns {} [Arg.bevelSize 2] 2 (mkRat 1 2)
      (by decide) (by decide) (by decide)⟩

/-! ### Claim C7 -/

/-- A geometry output whose coordinate space needs a transform the georeference
does not supply (lines 328-334). -/
def badGeomOutput (E : Ext) (cs : OutCS) : Prop :=
  ((cs = .en ∨ cs = .ll) ∧ E.fwdAffine = false) ∨ (cs = .ll ∧ E.fwdXform = false)

theorem checkGeomOutput_error (E : Ext) (cs : OutCS) (h : badGeomOutput E cs) :
    ∃ e, checkGeomOutput E cs = .error e := by
  unfold checkGeomOutput
  rcases h with h | h
  · exact ⟨_, by rw [if_pos h]⟩
  · by_cases h2 : (cs = .en ∨ cs = .ll) ∧ E.fwdAffine = false
    · exact ⟨_, by rw [if_pos h2]⟩
    · exact ⟨_, by rw [if_neg h2, if_pos h]⟩

theorem checkGeomOutputs_error (E : Ext) :
    ∀ l : List OutCS, (∃ cs ∈ l, badGeomOutput E cs) →
      ∃ e, checkGeomOutputs E l = .error e := by
  intro l
  induction l with
  | nil => intro h; simp at h
  | cons cs rest ih =>
    intro h
    unfold checkGeomOutputs
    rcases hc : checkGeomOutput E cs with e | u
    · exact ⟨e, rfl⟩
    · rcases h with ⟨cs2, hmem, hbad⟩
      rcases List.mem_cons.mp hmem with rfl | hmem2
      · obtain ⟨e, he⟩ := checkGeomOutput_error E cs2 hbad
        rw [hc] at he
        cases he
      · cases u
        exact ih ⟨cs2, hmem2, hbad⟩

/-- C7: a configured geometry output needing an unavailable transform (affine
for en/ll, projected-to-geographic for ll) makes the run fail with a fatal error
before any mask is read and before any core stage runs (the only possible event
is the raster open). -/
theorem missing_transform_rejected (F : CoreFns) (E : Ext) (args : List Arg) (o : Opts)
    (hp : parseArgs args = .ok o)
    (hbad : ∃ cs ∈ o.geomOutputs, badGeomOutput E cs) :
    (∃ e, (runMain F E args).2 = .error e) ∧
      ∀ ev ∈ (runMain F E args).1, ev = Event.rasterOpened := by
  have hrm : runMain F E args = runMainOpts F E o := by
    simp [runMain, hp]
  rw [hrm]
  unfold runMainOpts
  rcases hv : validateOpts E.ndvRanges o with e | u
  · exact ⟨⟨e, rfl⟩, by simp⟩
  · by_cases ho : E.openOk = false
    · rw [if_pos ho]
      exact ⟨⟨_, rfl⟩, by simp⟩
    · rw [if_neg ho]
      obtain ⟨e, he⟩ := checkGeomOutputs_error E o.geomOutputs hbad
      rw [he]
      exact ⟨⟨e, rfl⟩, by simp⟩

/-- The georeference of a raster with no projected-to-geographic transform. -/
def extNoXform : Ext := { fwdXform := false }

/-- Witness for C7 at concrete inputs. -/
theorem missing_transform_rejected_witness :
    (parseArgs [Arg.outCS "ll", Arg.wktOut "o.wkt", Arg.inputFile "in.tif"] =
      .ok { curOutCS := some OutCS.ll, geomOutputs := [.ll], hasInputFile := true } ∧
      (∃ cs ∈ [OutCS.ll], badGeomOutput extNoXform cs)) ∧
    ((∃ e, (runMain sampleFns extNoXform
        [Arg.outCS "ll", Arg.wktOut "o.wkt", Arg.inputFile "in.tif"]).2 = .error e) ∧
      ∀ ev ∈ (runMain sampleFns extNoXform
        [Arg.outCS "ll", Arg.wktOut "o.wkt", Arg.inputFile "in.tif"]).1,
        ev = Event.rasterOpened) :=
  ⟨⟨by rfl, ⟨.ll, by decide, .inr ⟨rfl, rfl⟩⟩⟩,
    missing_transform_rejected sampleFns extNoXform
      [Arg.outCS "ll", Arg.wktOut "o.wkt", Arg.inputFile "in.tif"]
      { curOutCS := some .ll, geomOutputs := [.ll], hasInputFile := true }
      (by rfl) ⟨.ll, by decide, .inr ⟨rfl, rfl⟩⟩⟩

/-! ### Claim C10 -/

/-- C10 counterexample: the flag combination `-major-ring -min-ring-area 0` is
not rejected — the raster is opened and output is produced, because the
validation only fires for a nonzero `min_ring_area` value. -/
theorem major_ring_conflict_counterexample :
    (runMain sampleFns {}
      [Arg.outCS "xy", Arg.wktOut "o.wkt", Arg.inputFile "in.tif",
        Arg.majorRing, Arg.minRingArea 0]).2 = .ok () ∧
    Event.rasterOpened ∈ (runMain sampleFns {}
      [Arg.outCS "xy", Arg.wktOut "o.wkt", Arg.inputFile "in.tif",
        Arg.majorRing, Arg.minRingArea 0]).1 ∧
    Event.emitShape ∈ (runMain sampleFns {}
      [Arg.outCS "xy", Arg.wktOut "o.wkt", Arg.inputFile "in.tif",
        Arg.majorRing, Arg.minRingArea 0]).1 := by
  refine ⟨rfl, ?_, ?_⟩ <;> decide

/-- C10 (amended): `-major-ring` with a nonzero `-min-ring-area` value, and
`-major-ring` with `-no-donuts`, are each rejected with a fatal error before the
raster is opened (no event at all is produced). -/
theorem major_ring_conflicts_rejected (F : CoreFns) (E : Ext) (args : List Arg) (o : Opts)
    (hp : parseArgs args = .ok o)
    (hc : o.majorRingOnly = true ∧ (o.minRingArea ≠ 0 ∨ o.noDonuts = true)) :
    (runMain F E args).1 = [] ∧ ∃ e, (runMain F E args).2 = .error e := by
  have hv : ∃ e, validateOpts E.ndvRanges o = .error e := by
    unfold validateOpts
    by_cases h1 : ¬o.hasInputFile = true
    · rw [if_pos h1]
      exact ⟨_, rfl⟩
    · rw [if_neg h1]
      by_cases h2 : o.majorRingOnly = true ∧ o.minRingArea ≠ 0
      · rw [if_pos h2]
        exact ⟨_, rfl⟩
      · rw [if_neg h2]
        have h3 : o.majorRingOnly = true ∧ o.noDonuts = true := by
          rcases hc with ⟨hm, h | h⟩
          · exact absurd ⟨hm, h⟩ h2
          · exact ⟨hm, h⟩
        rw [if_pos h3]
        exact ⟨_, rfl⟩
  obtain ⟨e, he⟩ := hv
  have hrm : runMain F E args = runMainOpts F E o := by
    simp [runMain, hp]
  rw [hrm]
  unfold runMainOpts
  rw [he]
  exact ⟨rfl, ⟨e, rfl⟩⟩

/-- Witness for the amended C10 at concrete inputs. -/
theorem major_ring_conflicts_rejected_witness :
    (parseArgs [Arg.inputFile "in.tif", Arg.majorRing, Arg.noDonutsFlag] =
      .ok { hasInputFile := true, majorRingOnly := true, noDonuts := true } ∧
      (true = true ∧ ((0 : Int) ≠ 0 ∨ true = true))) ∧
    ((runMain sampleFns {} [Arg.inputFile "in.tif", Arg.majorRing, Arg.noDonutsFlag]).1 = [] ∧
      ∃ e, (runMain sampleFns {}
        [Arg.inputFile "in.tif", Arg.majorRing, Arg.noDonutsFlag]).2 = .error e) :=
  ⟨⟨by rfl, rfl, .inr rfl⟩,
    major_ring_conflicts_rejected sampleFns {}
      [Arg.inputFile "in.tif", Arg.majorRing, Arg.noDonutsFlag]
      { hasInputFile := true, majorRingOnly := true, noDonuts := true }
      (by rfl) ⟨rfl, .inr rfl⟩⟩

/-! ### Claim C6 -/

theorem bestScan_go (l : List Ring) : ∀ (n : Nat) (acc : ℚ × Nat),
    acc.1 ≤ ((l.enumFrom n).foldl
        (fun acc ir => if ir.2.area > acc.1 then (ir.2.area, ir.1) else acc) acc).1 ∧
    (∀ r ∈ l, r.area ≤ ((l.enumFrom n).foldl
        (fun acc ir => if ir.2.area > acc.1 then (ir.2.area, ir.1) else acc) acc).1) ∧
    (((l.enumFrom n).foldl
        (fun acc ir => if ir.2.area > acc.1 then (ir.2.area, ir.1) else acc) acc) = acc ∨
      ∃ i, i < l.length ∧
        ((l.enumFrom n).foldl
          (fun acc ir => if ir.2.area > acc.1 then (ir.2.area, ir.1) else acc) acc).2 = n + i ∧
        ((l.enumFrom n).foldl
          (fun acc ir => if ir.2.area > acc.1 then (ir.2.area, ir.1) else acc) acc).1 =
          (l.getD i default).area) := by
  induction l with
  | nil =>
    intro n acc
    exact ⟨le_refl _, by simp, .inl rfl⟩
  | cons r t ih =>
    intro n acc
    simp only [List.enumFrom_cons, List.foldl_cons]
    by_cases hc : r.area > acc.1
    · rw [if_pos hc]
      obtain ⟨ha, hb, hrest⟩ := ih (n + 1) (r.area, n)
      refine ⟨le_trans (le_of_lt hc) ha, ?_, ?_⟩
      · intro r2 hr2
        rcases List.mem_cons.mp hr2 with rfl | hr2m
        · exact ha
        · exact hb r2 hr2m
      · rcases hrest with he | ⟨i, hi, h2, h3⟩
        · refine .inr ⟨0, by simp, ?_, ?_⟩
          · rw [he]
            simp
          · rw [he]
            rfl
        · refine .inr ⟨i + 1, by simpa using Nat.succ_lt_succ hi, ?_, ?_⟩
          · rw [h2]
            omega
          · rw [h3]
            rfl
    · rw [if_neg hc]
      obtain ⟨ha, hb, hrest⟩ := ih (n + 1) acc
      refine ⟨ha, ?_, ?_⟩
      · intro r2 hr2
        rcases List.mem_cons.mp hr2 with rfl | hr2m
        · exact le_trans (not_lt.mp hc) ha
        · exact hb r2 hr2m
      · rcases hrest with he | ⟨i, hi, h2, h3⟩
        · exact .inl he
        · refine .inr ⟨i + 1, by simpa using Nat.succ_lt_succ hi, ?_, ?_⟩
          · rw [h2]
            omega
          · rw [h3]
            rfl

theorem bestScan_spec (rings : List Ring) (hpos : ∃ r ∈ rings, 0 < r.area) :
    bestRingIdx rings < rings.length ∧
    (rings.getD (bestRingIdx rings) default).area = (bestScan rings).1 ∧
    ∀ r ∈ rings, r.area ≤ (bestScan rings).1 := by
  obtain ⟨r0, hr0m, hr0⟩ := hpos
  have hbs : bestScan rings = (rings.enumFrom 0).foldl
      (fun acc ir => if ir.2.area > acc.1 then (ir.2.area, ir.1) else acc) (0, 0) := rfl
  have H := bestScan_go rings 0 (0, 0)
  rw [← hbs] at H
  obtain ⟨_, hmax, hrest⟩ := H
  have hgt : (0 : ℚ) < (bestScan rings).1 := lt_of_lt_of_le hr0 (hmax r0 hr0m)
  rcases hrest with he | ⟨i, hi, h2, h3⟩
  · rw [he] at hgt
    exact absurd hgt (lt_irrefl 0)
  · have hidx : bestRingIdx rings = i := by
      rw [bestRingIdx, h2]
      omega
    refine ⟨by rw [hidx]; exact hi, ?_, hmax⟩
    rw [hidx, ← h3]

/-- C6: in major-ring-only mode (for a traced Mpoly with some positive-area
ring), if the selected globally-largest ring had a parent the stage aborts with
the fatal diagnostic; with the parentless rings the tracer delivers in this mode,
the result is exactly the single largest-area ring. -/
theorem major_ring_selection (mp : Mpoly) (hpos : ∃ r ∈ mp.rings, 0 < r.area) :
    ((1 < mp.rings.length ∧ 0 ≤ (bestRing mp).parentId) →
      majorRingStage true mp = .error "largest ring should not have a parent") ∧
    ((∀ r ∈ mp.rings, r.parentId < 0) →
      majorRingStage true mp = .ok ⟨[bestRing mp]⟩ ∧
      bestRing mp ∈ mp.rings ∧ ∀ r ∈ mp.rings, r.area ≤ (bestRing mp).area) := by
  obtain ⟨hlt, harea, hmax⟩ := bestScan_spec mp.rings hpos
  have hmem : bestRing mp ∈ mp.rings := by
    rw [bestRing, List.getD_eq_getElem _ _ hlt]
    exact List.getElem_mem hlt
  constructor
  · rintro ⟨h1, h2⟩
    unfold majorRingStage
    rw [if_pos ⟨rfl, h1⟩, if_pos h2]
  · intro hpar
    have hbp : (bestRing mp).parentId < 0 := hpar _ hmem
    refine ⟨?_, hmem, ?_⟩
    · unfold majorRingStage
      by_cases h1 : 1 < mp.rings.length
      · rw [if_pos ⟨rfl, h1⟩, if_neg (not_le.mpr hbp)]
      · rw [if_neg (fun hand => h1 hand.2)]
        have hne : mp.rings.length ≠ 0 := by omega
        have hlen : mp.rings.length = 1 := by omega
        obtain ⟨r, hr⟩ := List.length_eq_one.mp hlen
        have hidx : bestRingIdx mp.rings = 0 := by
          have := hlt
          omega
        have hbr : bestRing mp = r := by
          rw [bestRing, hidx, hr]
          rfl
        have hrings : mp.rings = [bestRing mp] := by
          rw [hr, hbr]
        rw [← hrings]
    · intro r hrm
      calc r.area ≤ (bestScan mp.rings).1 := hmax r hrm
        _ = (bestRing mp).area := harea.symm

/-- A unit square ring, parentless (C6 witness data). -/
def ringA : Ring := { pts := [(0, 0), (1, 0), (1, 1), (0, 1)] }

/-- A 2-by-2 square ring, parentless (C6 witness data). -/
def ringB : Ring := { pts := [(2, 0), (4, 0), (4, 2), (2, 2)] }

/-- A two-ring multipolygon (C6 witness data). -/
def mpAB : Mpoly := ⟨[ringA, ringB]⟩

/-- Witness for C6 at concrete inputs: `ringB` (area 4) is selected. -/
theorem major_ring_selection_witness :
    (∃ r ∈ mpAB.rings, 0 < r.area) ∧
    (majorRingStage true mpAB = .ok ⟨[bestRing mpAB]⟩ ∧
      bestRing mpAB ∈ mpAB.rings ∧ ∀ r ∈ mpAB.rings, r.area ≤ (bestRing mpAB).area) :=
  ⟨⟨ringA, by decide, by norm_num [Ring.area, shoelace, List.rotate, ringA]⟩,
    (major_ring_selection mpAB
      ⟨ringA, by decide, by norm_num [Ring.area, shoelace, List.rotate, ringA]⟩).2
      (by decide)⟩

/-! ### Claim C8 -/

theorem preMask_no_map (o : Opts) (e : Event) (he : e ∈ preMaskEvents o) :
    e.isMap = false := by
  unfold preMaskEvents at he
  rcases hI : o.doInvert <;> rcases hE : o.doErosion <;> rw [hI, hE] at he <;> simp at he
  · subst he
    rfl
  · subst he
    rfl
  · rcases he with rfl | rfl <;> rfl

theorem calcRing_no_map (F : CoreFns) (mask : BitGrid) (w h : Nat)
    (mro nd : Bool) (minA : Int) (bev : ℚ) :
    ∀ e ∈ (calcRingFromMask F mask w h mro nd minA bev).1, e.isMap = false := by
  rcases calcRing_events F mask w h mro nd minA bev with h1 | h1 <;> rw [h1] <;>
    intro e he <;> simp only [List.mem_cons, List.mem_singleton, List.not_mem_nil] at he
  · rcases he with rfl | he
    · rfl
    · simp at he
  · rcases he with rfl | rfl | he
    · rfl
    · rfl
    · simp at he

/-- C8: the mask export always consumes the pixel-space ring set: the payload
handed to the rasterizer is exactly the multipolygon after the pinch stage
(built with no coordinate-mapper application), and it is written before any
coordinate-mapper event. -/
theorem mask_export_premap (F : CoreFns) (o : Opts) (w h : Nat) (mask : BitGrid) (mp0 : Mpoly)
    (hmo : o.maskOutFn = true)
    (hok : (calcRingFromMask F (preMask F o mask) w h
      o.majorRingOnly o.noDonuts o.minRingArea o.bevelSize).2 = .ok mp0) :
    ∃ pre post,
      (classPass F o w h mask).1 =
        pre ++ Event.maskOutWrite (pinchStage F o.doPinchExcursions mp0).2 :: post ∧
      ∀ e ∈ pre, e.isMap = false := by
  have hcp : (classPass F o w h mask).1 =
      preMaskEvents o ++
        (calcRingFromMask F (preMask F o mask) w h
          o.majorRingOnly o.noDonuts o.minRingArea o.bevelSize).1 ++
        (pinchStage F o.doPinchExcursions mp0).1 ++
        (if o.maskOutFn = true then
          [Event.maskOutWrite (pinchStage F o.doPinchExcursions mp0).2] else []) ++
        (reduceStage F o.reductionTolerance (pinchStage F o.doPinchExcursions mp0).2).1 ++
        outputStage F o (reduceStage F o.reductionTolerance
          (pinchStage F o.doPinchExcursions mp0).2).2 := by
    simp only [classPass]
    rw [hok]
  refine ⟨preMaskEvents o ++
      (calcRingFromMask F (preMask F o mask) w h
        o.majorRingOnly o.noDonuts o.minRingArea o.bevelSize).1 ++
      (pinchStage F o.doPinchExcursions mp0).1,
    (reduceStage F o.reductionTolerance (pinchStage F o.doPinchExcursions mp0).2).1 ++
      outputStage F o (reduceStage F o.reductionTolerance
        (pinchStage F o.doPinchExcursions mp0).2).2, ?_, ?_⟩
  · rw [hcp, hmo]
    simp [List.append_assoc]
  · intro e he
    simp only [List.append_assoc, List.mem_append] at he
    rcases he with he | he | he
    · exact preMask_no_map o e he
    · exact calcRing_no_map F (preMask F o mask) w h
        o.majorRingOnly o.noDonuts o.minRingArea o.bevelSize e he
    · rcases pinchStage_events F o.doPinchExcursions mp0 with hp | hp <;> rw [hp] at he
      · simp at he
      · simp only [List.mem_singleton] at he
        subst he
        rfl

/-- Options with mask export enabled (C8 witness data). -/
def o8 : Opts := { maskOutFn := true, hasInputFile := true }

/-- Witness for C8 at concrete inputs. -/
theorem mask_export_premap_witness :
    (o8.maskOutFn = true ∧
      (calcRingFromMask sampleFns (preMask sampleFns o8 ⟨0, 0, []⟩) 3 3
        o8.majorRingOnly o8.noDonuts o8.minRingArea o8.bevelSize).2 = .ok sampleMp) ∧
    (∃ pre post,
      (classPass sampleFns o8 3 3 ⟨0, 0, []⟩).1 =
        pre ++ Event.maskOutWrite (pinchStage sampleFns o8.doPinchExcursions sampleMp).2 :: post ∧
      ∀ e ∈ pre, e.isMap = false) :=
  ⟨⟨rfl, by rfl⟩,
    mask_export_premap sampleFns o8 3 3 ⟨0, 0, []⟩ sampleMp rfl (by rfl)⟩

/-! ### Claim C2 — spec-modelled tracer and rasterizer

`mask-tracer.cc` and `polygon-rasterizer.cc` are not among the given sources;
the definitions below model them from the spec.  The tracer walks pixel-edge
boundaries (cracks) between foreground and background (or the grid border) into
closed loops; the rasterizer fills by the even-odd rule at pixel centers.
Pixel coordinates: pixel (x, y) is the unit square with corners (x, y) and
(x+1, y+1); y grows downward; a boundary crack is directed with foreground on
its right. -/

/-- Travel directions along pixel-grid cracks. -/
inductive Dir where
  | E
  | S
  | W
  | N
deriving DecidableEq, Repr

/-- Horizontal displacement of one step. -/
def Dir.dx : Dir → Int
  | .E => 1
  | .S => 0
  | .W => -1
  | .N => 0

/-- Vertical displacement of one step. -/
def Dir.dy : Dir → Int
  | .E => 0
  | .S => 1
  | .W => 0
  | .N => -1

/-- A directed pixel-edge (crack): start vertex plus direction. -/
structure Crack where
  x : Int
  y : Int
  d : Dir
deriving DecidableEq, Repr

/-- Pixel lookup with background outside the grid. -/
def BitGrid.getb (g : BitGrid) (x y : Int) : Bool :=
  if 0 ≤ x ∧ x < (g.w : Int) ∧ 0 ≤ y ∧ y < (g.h : Int) then
    g.data.getD (y.toNat * g.w + x.toNat) false
  else false

/-- The pixel on the right of the crack's travel. -/
def Crack.rightPixel (c : Crack) : Int × Int :=
  match c.d with
  | .E => (c.x, c.y)
  | .S => (c.x - 1, c.y)
  | .W => (c.x - 1, c.y - 1)
  | .N => (c.x, c.y - 1)

/-- The pixel on the left of the crack's travel. -/
def Crack.leftPixel (c : Crack) : Int × Int :=
  match c.d with
  | .E => (c.x, c.y - 1)
  | .S => (c.x, c.y)
  | .W => (c.x - 1, c.y)
  | .N => (c.x - 1, c.y - 1)

/-- A boundary crack: foreground on the right, background on the left. -/
def isBdry (g : BitGrid) (c : Crack) : Bool :=
  g.getb c.rightPixel.1 c.rightPixel.2 && !g.getb c.leftPixel.1 c.leftPixel.2

/-- Local successor rule at the crack's end vertex, from the four pixels around
that vertex (nw, ne, sw, se): turn left when the ahead-left pixel is foreground,
go straight when only the ahead-right pixel is, otherwise turn right.  This
connects diagonally-touching foreground pixels into a single loop. -/
def succLocal (nw ne sw se : Bool) : Dir → Dir
  | .E => if ne then .N else if se then .E else .S
  | .S => if se then .E else if sw then .S else .W
  | .W => if sw then .S else if nw then .W else .N
  | .N => if nw then .W else if ne then .N else .E

/-- Validity of an incoming direction at a vertex (the crack arriving from
direction `d` is a boundary crack), in terms of the four surrounding pixels. -/
def inBL (nw ne sw se : Bool) : Dir → Bool
  | .E => sw && !nw
  | .S => nw && !ne
  | .W => ne && !se
  | .N => se && !sw

/-- Validity of an outgoing direction at a vertex. -/
def outBL (nw ne sw se : Bool) : Dir → Bool
  | .E => se && !ne
  | .S => sw && !se
  | .W => nw && !sw
  | .N => ne && !nw

/-- Local predecessor rule: the unique valid incoming direction mapping to the
given outgoing direction. -/
def predLocal (nw ne sw se : Bool) (dOut : Dir) : Dir :=
  if inBL nw ne sw se .E && (succLocal nw ne sw se .E == dOut) then .E
  else if inBL nw ne sw se .S && (succLocal nw ne sw se .S == dOut) then .S
  else if inBL nw ne sw se .W && (succLocal nw ne sw se .W == dOut) then .W
  else .N

theorem succLocal_valid (nw ne sw se : Bool) (d : Dir) (h : inBL nw ne sw se d = true) :
    outBL nw ne sw se (succLocal nw ne sw se d) = true := by
  revert h
  cases nw <;> cases ne <;> cases sw <;> cases se <;> cases d <;> decide

theorem predLocal_succLocal (nw ne sw se : Bool) (d : Dir) (h : inBL nw ne sw se d = true) :
    predLocal nw ne sw se (succLocal nw ne sw se d) = d := by
  revert h
  cases nw <;> cases ne <;> cases sw <;> cases se <;> cases d <;> decide

/-- Grid-level crack successor: move to the end vertex and apply the local rule. -/
def succC (g : BitGrid) (c : Crack) : Crack :=
  let vx := c.x + c.d.dx
  let vy := c.y + c.d.dy
  ⟨vx, vy, succLocal (g.getb (vx - 1) (vy - 1)) (g.getb vx (vy - 1))
    (g.getb (vx - 1) vy) (g.getb vx vy) c.d⟩

/-- Grid-level crack predecessor. -/
def predC (g : BitGrid) (c : Crack) : Crack :=
  let dIn := predLocal (g.getb (c.x - 1) (c.y - 1)) (g.getb c.x (c.y - 1))
    (g.getb (c.x - 1) c.y) (g.getb c.x c.y) c.d
  ⟨c.x - dIn.dx, c.y - dIn.dy, dIn⟩

theorem isBdry_eq_inBL (g : BitGrid) (c : Crack) :
    isBdry g c = inBL (g.getb (c.x + c.d.dx - 1) (c.y + c.d.dy - 1))
      (g.getb (c.x + c.d.dx) (c.y + c.d.dy - 1))
      (g.getb (c.x + c.d.dx - 1) (c.y + c.d.dy))
      (g.getb (c.x + c.d.dx) (c.y + c.d.dy)) c.d := by
  obtain ⟨x, y, d⟩ := c
  cases d <;>
    simp [isBdry, inBL, Crack.rightPixel, Crack.leftPixel, Dir.dx, Dir.dy,
      Int.add_sub_cancel, sub_eq_add_neg]

theorem isBdry_eq_outBL (g : BitGrid) (c : Crack) :
    isBdry g c = outBL (g.getb (c.x - 1) (c.y - 1)) (g.getb c.x (c.y - 1))
      (g.getb (c.x - 1) c.y) (g.getb c.x c.y) c.d := by
  obtain ⟨x, y, d⟩ := c
  cases d <;> rfl

theorem succC_bdry (g : BitGrid) (c : Crack) (h : isBdry g c = true) :
    isBdry g (succC g c) = true := by
  rw [isBdry_eq_inBL] at h
  rw [isBdry_eq_outBL]
  exact succLocal_valid _ _ _ _ _ h

theorem predC_succC (g : BitGrid) (c : Crack) (h : isBdry g c = true) :
    predC g (succC g c) = c := by
  rw [isBdry_eq_inBL] at h
  obtain ⟨x, y, d⟩ := c
  simp only [succC, predC]
  rw [predLocal_succLocal _ _ _ _ _ h]
  simp [Int.add_sub_cancel]

theorem succC_inj (g : BitGrid) (c1 c2 : Crack) (h1 : isBdry g c1 = true)
    (h2 : isBdry g c2 = true) (he : succC g c1 = succC g c2) : c1 = c2 := by
  rw [← predC_succC g c1 h1, ← predC_succC g c2 h2, he]

/-- All boundary cracks of a grid, without duplicates. -/
def allCracks (g : BitGrid) : List Crack :=
  (((List.range (g.w + 1)) ×ˢ ((List.range (g.h + 1)) ×ˢ [Dir.E, .S, .W, .N])).map
    (fun t => (⟨(t.1 : Int), (t.2.1 : Int), t.2.2⟩ : Crack))).filter (isBdry g)

theorem allCracks_nodup (g : BitGrid) : (allCracks g).Nodup := by
  apply List.Nodup.filter
  apply List.Nodup.map
  · rintro ⟨a1, a2, a3⟩ ⟨b1, b2, b3⟩ hab
    simp only [Crack.mk.injEq] at hab
    obtain ⟨h1, h2, h3⟩ := hab
    have e1 : a1 = b1 := by exact_mod_cast h1
    have e2 : a2 = b2 := by exact_mod_cast h2
    simp_all
  · exact (List.nodup_range _).product ((List.nodup_range _).product (by decide))

theorem getb_bounds (g : BitGrid) (x y : Int) (h : g.getb x y = true) :
    0 ≤ x ∧ x < (g.w : Int) ∧ 0 ≤ y ∧ y < (g.h : Int) := by
  by_contra hc
  rw [BitGrid.getb, if_neg hc] at h
  simp at h

theorem mem_allCracks (g : BitGrid) (c : Crack) (h : isBdry g c = true) :
    c ∈ allCracks g := by
  have hrp : g.getb c.rightPixel.1 c.rightPixel.2 = true := by
    rw [isBdry, Bool.and_eq_true] at h
    exact h.1
  have hb := getb_bounds g _ _ hrp
  have hx : 0 ≤ c.x ∧ c.x ≤ (g.w : Int) ∧ 0 ≤ c.y ∧ c.y ≤ (g.h : Int) := by
    obtain ⟨cx, cy, cd⟩ := c
    cases cd <;> simp only [Crack.rightPixel] at hb <;> simp only <;> omega
  rw [allCracks, List.mem_filter]
  refine ⟨?_, h⟩
  rw [List.mem_map]
  refine ⟨(c.x.toNat, (c.y.toNat, c.d)), ?_, ?_⟩
  · rw [List.mem_product]
    refine ⟨by rw [List.mem_range]; omega, ?_⟩
    rw [List.mem_product]
    refine ⟨by rw [List.mem_range]; omega, ?_⟩
    cases hcd : c.d <;> simp
  · have e1 : ((c.x.toNat : Int)) = c.x := Int.toNat_of_nonneg hx.1
    have e2 : ((c.y.toNat : Int)) = c.y := Int.toNat_of_nonneg hx.2.2.1
    obtain ⟨cx, cy, cd⟩ := c
    simp_all

theorem iter_bdry (g : BitGrid) (c : Crack) (h : isBdry g c = true) :
    ∀ i, isBdry g ((succC g)^[i] c) = true := by
  intro i
  induction i with
  | zero => exact h
  | succ n ih =>
    rw [Function.iterate_succ_apply']
    exact succC_bdry g _ ih

theorem iter_inj (g : BitGrid) : ∀ (i : Nat) (a b : Crack), isBdry g a = true →
    isBdry g b = true → (succC g)^[i] a = (succC g)^[i] b → a = b := by
  intro i
  induction i with
  | zero => exact fun a b _ _ h => h
  | succ n ih =>
    intro a b ha hb h
    rw [Function.iterate_succ_apply, Function.iterate_succ_apply] at h
    exact succC_inj g a b ha hb (ih _ _ (succC_bdry g a ha) (succC_bdry g b hb) h)

theorem exists_period (g : BitGrid) (c : Crack) (h : isBdry g c = true) :
    ∃ p, 1 ≤ p ∧ p ≤ (allCracks g).length ∧ (succC g)^[p] c = c := by
  have key : ∀ a b : Nat, a < b → b ≤ (allCracks g).length →
      (succC g)^[a] c = (succC g)^[b] c →
      ∃ p, 1 ≤ p ∧ p ≤ (allCracks g).length ∧ (succC g)^[p] c = c := by
    intro a b hab hbN hfe
    refine ⟨b - a, by omega, by omega, ?_⟩
    have h2 : (succC g)^[a] ((succC g)^[b - a] c) = (succC g)^[a] c := by
      rw [← Function.iterate_add_apply]
      rw [show a + (b - a) = b by omega]
      exact hfe.symm
    exact iter_inj g a _ _ (iter_bdry g c h _) h h2
  have hmaps : ∀ i : Fin ((allCracks g).length + 1),
      (succC g)^[(i : Nat)] c ∈ (allCracks g).toFinset := by
    intro i
    rw [List.mem_toFinset]
    exact mem_allCracks g _ (iter_bdry g c h i)
  have hcard : ((allCracks g).toFinset).card <
      (Finset.univ : Finset (Fin ((allCracks g).length + 1))).card := by
    rw [Finset.card_univ, Fintype.card_fin]
    exact Nat.lt_succ_of_le (List.toFinset_card_le _)
  obtain ⟨i, _, j, _, hne, hfe⟩ :=
    Finset.exists_ne_map_eq_of_card_lt_of_maps_to hcard (fun i _ => hmaps i)
  rcases Nat.lt_or_ge (i : Nat) (j : Nat) with hij | hij
  · exact key i j hij (by omega) hfe
  · have hij2 : (j : Nat) < (i : Nat) := by
      rcases Nat.lt_or_ge (j : Nat) (i : Nat) with h2 | h2
      · exact h2
      · exact absurd (Fin.ext (by omega)) hne
    exact key j i hij2 (by omega) hfe.symm

/-- Follow crack successors from `cur`, stopping when the walk is about to
return to `start` (or when fuel runs out). -/
def walk (g : BitGrid) (start : Crack) : Nat → Crack → List Crack
  | 0, cur => [cur]
  | fuel + 1, cur =>
    cur :: (if succC g cur = start then [] else walk g start fuel (succC g cur))

theorem walk_head_mem (g : BitGrid) (start cur : Crack) (fuel : Nat) :
    cur ∈ walk g start fuel cur := by
  cases fuel <;> simp [walk]

theorem walk_eq (g : BitGrid) (start : Crack) :
    ∀ (m fuel : Nat) (cur : Crack), m ≤ fuel →
      (succC g)^[m + 1] cur = start →
      (∀ q < m, (succC g)^[q + 1] cur ≠ start) →
      walk g start fuel cur = (List.range (m + 1)).map (fun i => (succC g)^[i] cur) := by
  intro m
  induction m with
  | zero =>
    intro fuel cur _ hm _
    cases fuel with
    | zero => simp [walk]
    | succ f =>
      rw [walk, if_pos (by simpa using hm)]
      simp
  | succ n ih =>
    intro fuel cur hle hm hmin
    obtain ⟨f, rfl⟩ : ∃ f, fuel = f + 1 := ⟨fuel - 1, by omega⟩
    rw [walk]
    have hne : succC g cur ≠ start := by
      have := hmin 0 (Nat.succ_pos n)
      simpa using this
    rw [if_neg hne]
    rw [Function.iterate_succ_apply] at hm
    have hmin2 : ∀ q < n, (succC g)^[q + 1] (succC g cur) ≠ start := by
      intro q hq
      have := hmin (q + 1) (by omega)
      rwa [Function.iterate_succ_apply] at this
    rw [ih f (succC g cur) (by omega) hm hmin2]
    apply List.ext_getElem
    · simp
    · intro i h1 h2
      cases i with
      | zero => simp
      | succ j =>
        simp only [List.getElem_cons_succ, List.getElem_map, List.getElem_range]
        rw [Function.iterate_succ_apply]

/-- Membership in the forward orbit of a crack under the successor map. -/
def inOrbit (g : BitGrid) (c x : Crack) : Prop := ∃ i, (succC g)^[i] c = x

theorem inOrbit_trans (g : BitGrid) (a b c : Crack) (h1 : inOrbit g a b)
    (h2 : inOrbit g b c) : inOrbit g a c := by
  obtain ⟨i, rfl⟩ := h1
  obtain ⟨j, rfl⟩ := h2
  exact ⟨j + i, Function.iterate_add_apply _ j i a⟩

theorem iterate_mul_period (f : Crack → Crack) (x : Crack) (n : Nat) (hp : f^[n] x = x) :
    ∀ k, f^[k * n] x = x := by
  intro k
  induction k with
  | zero => simp
  | succ j ih =>
    rw [Nat.succ_mul, Function.iterate_add_apply, hp, ih]

theorem inOrbit_symm (g : BitGrid) (a b : Crack) (ha : isBdry g a = true)
    (h : inOrbit g a b) : inOrbit g b a := by
  obtain ⟨i, rfl⟩ := h
  obtain ⟨p, hp1, _, hp⟩ := exists_period g a ha
  refine ⟨i * p - i, ?_⟩
  have h2 : (succC g)^[i * p - i + i] a = a := by
    rw [show i * p - i + i = i * p by
      have : i ≤ i * p := Nat.le_mul_of_pos_right i (by omega)
      omega]
    exact iterate_mul_period _ _ _ hp i
  rw [Function.iterate_add_apply] at h2
  exact h2

theorem iterate_mod_period (f : Crack → Crack) (x : Crack) (n : Nat) (hn : 0 < n)
    (hp : f^[n] x = x) : ∀ i, f^[i] x = f^[i % n] x := by
  intro i
  induction i using Nat.strong_induction_on with
  | _ i ih =>
    by_cases hlt : i < n
    · rw [Nat.mod_eq_of_lt hlt]
    · have hmod : i % n = (i - n) % n := Nat.mod_eq_sub_mod (le_of_not_lt hlt)
      have key : f^[i] x = f^[i - n] x := by
        conv_lhs => rw [show i = (i - n) + n by omega]
        rw [Function.iterate_add_apply, hp]
      rw [key, hmod]
      exact ih (i - n) (by omega)

/-- The boundary loop through a crack: walk until the successor would return. -/
def loopAt (g : BitGrid) (c : Crack) : List Crack := walk g c ((allCracks g).length) c

theorem loopAt_spec (g : BitGrid) (c : Crack) (hb : isBdry g c = true) :
    ∃ m, m + 1 ≤ (allCracks g).length ∧
      loopAt g c = (List.range (m + 1)).map (fun i => (succC g)^[i] c) ∧
      (succC g)^[m + 1] c = c ∧ ∀ q < m, (succC g)^[q + 1] c ≠ c := by
  obtain ⟨p, hp1, hpN, hp⟩ := exists_period g c hb
  have hpp : (succC g)^[p - 1 + 1] c = c := by
    rw [show p - 1 + 1 = p by omega]
    exact hp
  have hex : ∃ t, (succC g)^[t + 1] c = c := ⟨p - 1, hpp⟩
  have hfle : Nat.find hex ≤ p - 1 := Nat.find_min' hex hpp
  refine ⟨Nat.find hex, by omega, ?_, Nat.find_spec hex, fun q hq => Nat.find_min hex hq⟩
  exact walk_eq g c (Nat.find hex) _ c (by omega) (Nat.find_spec hex)
    (fun q hq => Nat.find_min hex hq)

theorem loopAt_mem_iff (g : BitGrid) (c : Crack) (hb : isBdry g c = true) (x : Crack) :
    x ∈ loopAt g c ↔ inOrbit g c x := by
  obtain ⟨m, _, hL, hper, _⟩ := loopAt_spec g c hb
  rw [hL]
  constructor
  · intro hx
    rw [List.mem_map] at hx
    obtain ⟨i, _, rfl⟩ := hx
    exact ⟨i, rfl⟩
  · rintro ⟨i, rfl⟩
    rw [List.mem_map]
    refine ⟨i % (m + 1), ?_, ?_⟩
    · rw [List.mem_range]
      exact Nat.mod_lt _ (by omega)
    · exact (iterate_mod_period _ _ _ (by omega) hper i).symm

theorem loopAt_nodup (g : BitGrid) (c : Crack) (hb : isBdry g c = true) :
    (loopAt g c).Nodup := by
  obtain ⟨m, _, hL, hper, hmin⟩ := loopAt_spec g c hb
  rw [hL]
  apply (List.nodup_range (m + 1)).map_on
  intro i hi j hj hij
  rw [List.mem_range] at hi hj
  by_contra hne
  rcases Nat.lt_or_ge i j with hlt | hge
  · have hc2 : (succC g)^[i] ((succC g)^[j - i] c) = (succC g)^[i] c := by
    -- j = i + (j - i)
      rw [← Function.iterate_add_apply]
      rw [show i + (j - i) = j by omega]
      exact hij.symm
    have h3 : (succC g)^[j - i] c = c :=
      iter_inj g i _ _ (iter_bdry g c hb _) hb hc2
    have h4 : (succC g)^[(j - i - 1) + 1] c = c := by
      rw [show j - i - 1 + 1 = j - i by omega]
      exact h3
    exact hmin (j - i - 1) (by omega) h4
  · have hlt2 : j < i := by omega
    have hc2 : (succC g)^[j] ((succC g)^[i - j] c) = (succC g)^[j] c := by
      rw [← Function.iterate_add_apply]
      rw [show j + (i - j) = i by omega]
      exact hij
    have h3 : (succC g)^[i - j] c = c :=
      iter_inj g j _ _ (iter_bdry g c hb _) hb hc2
    have h4 : (succC g)^[(i - j - 1) + 1] c = c := by
      rw [show i - j - 1 + 1 = i - j by omega]
      exact h3
    exact hmin (i - j - 1) (by omega) h4

theorem loopAt_chain (g : BitGrid) (c : Crack) (hb : isBdry g c = true) :
    List.Chain' (fun a b => b = succC g a) (loopAt g c) := by
  obtain ⟨m, _, hL, _, _⟩ := loopAt_spec g c hb
  rw [hL, List.chain'_iff_get]
  intro i hi
  simp only [List.length_map, List.length_range] at hi
  simp only [List.get_eq_getElem, List.getElem_map, List.getElem_range]
  exact Function.iterate_succ_apply' _ _ _

theorem loopAt_ne_nil (g : BitGrid) (c : Crack) : loopAt g c ≠ [] := by
  have := walk_head_mem g c c ((allCracks g).length)
  intro h
  rw [loopAt] at h
  rw [h] at this
  simp at this

theorem loopAt_closes (g : BitGrid) (c : Crack) (hb : isBdry g c = true)
    (hne : loopAt g c ≠ []) : succC g ((loopAt g c).getLast hne) = c := by
  obtain ⟨m, _, hL, hper, _⟩ := loopAt_spec g c hb
  rw [List.getLast_eq_getElem]
  simp only [hL, List.getElem_map, List.getElem_range, List.length_map, List.length_range,
    Nat.add_sub_cancel]
  rw [← Function.iterate_succ_apply' (succC g) m c]
  exact hper

theorem loopAt_head (g : BitGrid) (c : Crack) (hb : isBdry g c = true)
    (hne : loopAt g c ≠ []) : (loopAt g c).head hne = c := by
  obtain ⟨m, _, hL, _, _⟩ := loopAt_spec g c hb
  rw [List.head_eq_getElem]
  simp only [hL, List.getElem_map, List.getElem_range, Function.iterate_zero_apply]

/-- Partition a worklist of boundary cracks into loops: take the loop through
the first crack, remove its cracks, repeat. -/
def extractGo (g : BitGrid) : List Crack → List (List Crack)
  | [] => []
  | c :: rest =>
    (loopAt g c) ::
      extractGo g ((c :: rest).filter (fun x => decide (¬ x ∈ loopAt g c)))
termination_by l => l.length
decreasing_by
  have hc : c ∈ loopAt g c := walk_head_mem g c c ((allCracks g).length)
  have h1 : (List.filter (fun x => decide (¬ x ∈ loopAt g c)) (c :: rest)) =
      List.filter (fun x => decide (¬ x ∈ loopAt g c)) rest := by
    rw [List.filter_cons]
    simp [hc]
  rw [h1]
  have := List.length_filter_le (fun x => decide (¬ x ∈ loopAt g c)) rest
  simp only [List.length_cons]
  omega

/-- All boundary loops of a grid. -/
def extractLoops (g : BitGrid) : List (List Crack) := extractGo g (allCracks g)

theorem extractGo_perm (g : BitGrid) (n : Nat) : ∀ (l : List Crack), l.length = n →
    l.Nodup →
    (∀ c ∈ l, isBdry g c = true) →
    (∀ c ∈ l, ∀ x, inOrbit g c x → x ∈ l) →
    ((extractGo g l).flatten).Perm l := by
  induction n using Nat.strong_induction_on with
  | _ n ih =>
    intro l hn hnd hbd hcl
    cases l with
    | nil =>
      rw [extractGo]
      simp
    | cons c rest =>
      have hbc : isBdry g c = true := hbd c (List.mem_cons_self c rest)
      have hLorb : ∀ x, x ∈ loopAt g c ↔ inOrbit g c x := loopAt_mem_iff g c hbc
      have hLsub : ∀ x ∈ loopAt g c, x ∈ c :: rest := by
        intro x hx
        exact hcl c (List.mem_cons_self c rest) x ((hLorb x).mp hx)
      have hc : c ∈ loopAt g c := walk_head_mem g c c ((allCracks g).length)
      have hfc : (List.filter (fun x => decide (¬ x ∈ loopAt g c)) (c :: rest)) =
          List.filter (fun x => decide (¬ x ∈ loopAt g c)) rest := by
        rw [List.filter_cons]
        simp [hc]
      have hlen : (List.filter (fun x => decide (¬ x ∈ loopAt g c)) (c :: rest)).length < n := by
        rw [hfc]
        have h2 := List.length_filter_le (fun x => decide (¬ x ∈ loopAt g c)) rest
        simp only [List.length_cons] at hn
        omega
      rw [extractGo, List.flatten_cons]
      have hfilt : (List.filter (fun x => decide (¬ x ∈ loopAt g c)) (c :: rest)) =
          List.filter (fun x => !decide (x ∈ loopAt g c)) (c :: rest) := by
        apply List.filter_congr
        intro x _
        simp
      have hperm2 : ((extractGo g
          ((c :: rest).filter (fun x => decide (¬ x ∈ loopAt g c)))).flatten).Perm
          ((c :: rest).filter (fun x => decide (¬ x ∈ loopAt g c))) := by
        apply ih _ hlen _ rfl ?_ ?_ ?_
        · exact hnd.filter _
        · intro x hx
          exact hbd x (List.mem_of_mem_filter hx)
        · intro x hx y hy
          rw [List.mem_filter] at hx
          obtain ⟨hxl, hxnL⟩ := hx
          rw [List.mem_filter]
          refine ⟨hcl x hxl y hy, ?_⟩
          simp only [decide_eq_true_eq] at hxnL ⊢
          intro hyL
          apply hxnL
          rw [hLorb] at hyL ⊢
          exact inOrbit_trans g c y x hyL
            (inOrbit_symm g x y (hbd x hxl) hy)
      have hpermL : (List.filter (fun x => decide (x ∈ loopAt g c)) (c :: rest)).Perm
          (loopAt g c) := by
        apply List.perm_of_nodup_nodup_toFinset_eq
        · exact hnd.filter _
        · exact loopAt_nodup g c hbc
        · apply Finset.ext
          intro a
          simp only [List.mem_toFinset, List.mem_filter, decide_eq_true_eq]
          constructor
          · exact fun h => h.2
          · exact fun h => ⟨hLsub a h, h⟩
      refine List.Perm.trans (List.Perm.append_left (loopAt g c) hperm2) ?_
      rw [hfilt]
      refine List.Perm.trans (List.Perm.append_right _ hpermL.symm) ?_
      exact List.filter_append_perm _ _

theorem extractGo_mem (g : BitGrid) (n : Nat) : ∀ (l : List Crack), l.length = n →
    (∀ c ∈ l, isBdry g c = true) →
    ∀ L ∈ extractGo g l, ∃ c, isBdry g c = true ∧ L = loopAt g c := by
  induction n using Nat.strong_induction_on with
  | _ n ih =>
    intro l hn hbd L hL
    cases l with
    | nil =>
      rw [extractGo] at hL
      simp at hL
    | cons c rest =>
      have hbc : isBdry g c = true := hbd c (List.mem_cons_self c rest)
      rw [extractGo] at hL
      rcases List.mem_cons.mp hL with rfl | hL2
      · exact ⟨c, hbc, rfl⟩
      · have hc : c ∈ loopAt g c := walk_head_mem g c c ((allCracks g).length)
        have hfc : (List.filter (fun x => decide (¬ x ∈ loopAt g c)) (c :: rest)) =
            List.filter (fun x => decide (¬ x ∈ loopAt g c)) rest := by
          rw [List.filter_cons]
          simp [hc]
        have hlen : (List.filter (fun x => decide (¬ x ∈ loopAt g c)) (c :: rest)).length < n := by
          rw [hfc]
          have h2 := List.length_filter_le (fun x => decide (¬ x ∈ loopAt g c)) rest
          simp only [List.length_cons] at hn
          omega
        exact ih _ hlen _ rfl (fun x hx => hbd x (List.mem_of_mem_filter hx)) L hL2

/-- Start vertex of a crack as a rational point. -/
def crackStart (c : Crack) : ℚ × ℚ := ((c.x : ℚ), (c.y : ℚ))

/-- End vertex of a crack as a rational point. -/
def crackEnd (c : Crack) : ℚ × ℚ := (((c.x + c.d.dx : Int) : ℚ), ((c.y + c.d.dy : Int) : ℚ))

/-- The directed unit segment of a crack. -/
def crackSeg (c : Crack) : (ℚ × ℚ) × (ℚ × ℚ) := (crackStart c, crackEnd c)

/-- Modelled from the spec: each closed boundary loop becomes a ring; its points
are the loop's vertices; the walk's orientation (the shoelace sign) classifies
exterior versus hole. -/
def ringOfLoop (L : List Crack) : Ring :=
  { pts := L.map crackStart, isHole := decide (shoelace (L.map crackStart) < 0),
    parentId := -1 }

/-- Edges of a ring: consecutive point pairs, closing back to the first. -/
def ringEdges (r : Ring) : List ((ℚ × ℚ) × (ℚ × ℚ)) := r.pts.zip (r.pts.rotate 1)

theorem loop_rotate_map (g : BitGrid) (L : List Crack) (hne : L ≠ [])
    (hch : List.Chain' (fun a b => b = succC g a) L)
    (hcl : succC g (L.getLast hne) = L.head hne) :
    (L.map crackStart).rotate 1 = L.map crackEnd := by
  have hlen : 0 < L.length := List.length_pos.mpr hne
  apply List.ext_getElem
  · simp
  · intro k h1 h2
    rw [List.getElem_rotate]
    simp only [List.length_map, List.getElem_map]
    have hkL : k < L.length := by
      simp only [List.length_map, List.length_rotate] at h1
      exact h1
    by_cases hk : k + 1 < L.length
    · have hstep := List.chain'_iff_get.mp hch k (by omega)
      simp only [List.get_eq_getElem] at hstep
      simp only [Nat.mod_eq_of_lt hk]
      rw [hstep]
      rfl
    · have hk2 : k = L.length - 1 := by
        omega
      have hmod : (k + 1) % L.length = 0 := by
        rw [hk2, show L.length - 1 + 1 = L.length by omega, Nat.mod_self]
      simp only [hmod]
      have hh := List.head_eq_getElem L hne
      have hl := List.getLast_eq_getElem L hne
      rw [hh, hl] at hcl
      rw [← hcl]
      subst hk2
      rfl

theorem ringEdges_of_loop (g : BitGrid) (L : List Crack) (hne : L ≠ [])
    (hch : List.Chain' (fun a b => b = succC g a) L)
    (hcl : succC g (L.getLast hne) = L.head hne) :
    ringEdges (ringOfLoop L) = L.map crackSeg := by
  unfold ringEdges ringOfLoop crackSeg
  simp only
  rw [loop_rotate_map g L hne hch hcl, List.zip_map']

/-- One half, as an exact rational. -/
def half : ℚ := mkRat 1 2

/-- Division-free crossing test: the segment pq crosses the rightward
horizontal ray from c iff it strictly straddles the ray's line and the
intersection abscissa is strictly right of c. -/
def segCrossesRay (p q c : ℚ × ℚ) : Bool :=
  ((decide (p.2 < c.2 ∧ c.2 < q.2)) || (decide (q.2 < c.2 ∧ c.2 < p.2))) &&
    (if 0 < q.2 - p.2 then
      decide (c.1 * (q.2 - p.2) < p.1 * (q.2 - p.2) + (c.2 - p.2) * (q.1 - p.1))
    else
      decide (p.1 * (q.2 - p.2) + (c.2 - p.2) * (q.1 - p.1) < c.1 * (q.2 - p.2)))

/-- Center of pixel (x, y). -/
def pixCenter (x y : Nat) : ℚ × ℚ := ((x : ℚ) + half, (y : ℚ) + half)

/-- Number of ring-edge crossings of the rightward ray from a point. -/
def crossCount (mp : Mpoly) (c : ℚ × ℚ) : Nat :=
  (mp.rings.flatMap ringEdges).countP (fun e => segCrossesRay e.1 e.2 c)

/-- Modelled from the spec: the Rasterizer (`mask_from_mpoly` / `fill`) —
scan-convert the rings into a boolean grid by the hole-aware even-odd rule:
a pixel is foreground iff its center is inside an odd number of ring
boundaries. -/
def fillModel (mp : Mpoly) (w h : Nat) : BitGrid :=
  ⟨w, h, (List.range (w * h)).map (fun i =>
    decide (crossCount mp (pixCenter (i % w) (i / w)) % 2 = 1))⟩

/-- Interior representative point of a hole ring: the center of the pixel to
the left of its first boundary edge. -/
def holePoint (r : Ring) : ℚ × ℚ :=
  match r.pts with
  | p0 :: p1 :: _ =>
    (p0.1 + (p1.1 - p0.1) * half + (p1.2 - p0.2) * half,
     p0.2 + (p1.2 - p0.2) * half - (p1.1 - p0.1) * half)
  | _ => (0, 0)

/-- Crossing count against a single ring. -/
def ringCrossCount (r : Ring) (c : ℚ × ℚ) : Nat :=
  (ringEdges r).countP (fun e => segCrossesRay e.1 e.2 c)

/-- Even-odd containment of a point in one ring. -/
def ringContains (r : Ring) (c : ℚ × ℚ) : Bool := decide (ringCrossCount r c % 2 = 1)

/-- Modelled from the spec: nesting resolution — a hole ring's parent is the
smallest-area ring strictly larger than it containing the hole's representative
point (comparisons use the raw shoelace sum, twice the area, which orders
identically). -/
def findParent (rings : List Ring) (r : Ring) : Int :=
  let cands := rings.enum.filter (fun ir =>
    decide (|shoelace r.pts| < |shoelace ir.2.pts|) && ringContains ir.2 (holePoint r))
  match cands.foldl (fun best ir =>
      match best with
      | none => some ir
      | some b => if |shoelace ir.2.pts| < |shoelace b.2.pts| then some ir else some b)
      none with
  | none => -1
  | some ir => (ir.1 : Int)

/-- Modelled from the spec: assign a parent to every hole ring. -/
def assignParents (rings : List Ring) : List Ring :=
  rings.map (fun r => if r.isHole then { r with parentId := findParent rings r } else r)

/-- Area test of the during-assembly filter: twice the unsigned ring area is at
least twice `min_ring_area`. -/
def areaOK (minArea : Int) (r : Ring) : Bool :=
  decide ((2 * (minArea : ℚ)) ≤ |shoelace r.pts|)

/-- The area test along the parent chain (fuel-bounded): a ring survives only
if it and all its ancestors pass. -/
def chainOK (rings : List Ring) (minArea : Int) : Nat → Ring → Bool
  | 0, r => areaOK minArea r
  | fuel + 1, r =>
    areaOK minArea r &&
      (if 0 ≤ r.parentId ∧ r.parentId.toNat < rings.length then
        chainOK rings minArea fuel (rings.getD r.parentId.toNat default)
      else true)

/-- Modelled from the spec: the during-assembly ring filter — rings below the
area threshold are dropped together with their dependent holes; with
`suppress_holes` only parentless rings are retained; surviving parent indices
are compacted. -/
def filterRings (rings : List Ring) (minArea : Int) (suppressHoles : Bool) : List Ring :=
  let keep : Ring → Bool := fun r =>
    chainOK rings minArea rings.length r && (!suppressHoles || decide (r.parentId < 0))
  let keepIdx : Nat → Bool := fun i => keep (rings.getD i default)
  let newIdx : Int → Int := fun p =>
    if 0 ≤ p ∧ keepIdx p.toNat then (((List.range p.toNat).filter keepIdx).length : Int)
    else -1
  (rings.filter keep).map (fun r => { r with parentId := newIdx r.parentId })

/-- Modelled from the spec: `trace_mask` (mask-tracer.cc) — walk the pixel-edge
boundaries between foreground and background (or grid border) into closed
loops, make each loop a ring with hole classification and parent nesting, then
apply the minimum-area filter and hole suppression.  The grid carries its own
dimensions; the extra arguments mirror the C signature. -/
def traceMaskModel (g : BitGrid) (_w _h : Nat) (minRingArea : Int)
    (suppressHoles : Bool) : Mpoly :=
  ⟨filterRings (assignParents ((extractLoops g).map ringOfLoop)) minRingArea suppressHoles⟩

theorem areaOK_zero (r : Ring) : areaOK 0 r = true := by
  simp [areaOK, abs_nonneg]

theorem chainOK_zero (rings : List Ring) : ∀ (fuel : Nat) (r : Ring),
    chainOK rings 0 fuel r = true := by
  intro fuel
  induction fuel with
  | zero => exact fun r => areaOK_zero r
  | succ n ih =>
    intro r
    rw [chainOK, areaOK_zero]
    simp only [Bool.true_and]
    split
    · exact ih _
    · rfl

theorem filterRings_id (rings : List Ring) (hp : ∀ r ∈ rings, -1 ≤ r.parentId) :
    filterRings rings 0 false = rings := by
  unfold filterRings
  simp only
  have hkeep : ∀ r, (chainOK rings 0 rings.length r &&
      (!false || decide (r.parentId < 0))) = true := by
    intro r
    rw [chainOK_zero]
    rfl
  rw [List.filter_eq_self.mpr (fun a _ => hkeep a)]
  have hid : ∀ r ∈ rings,
      ({ r with parentId :=
        if 0 ≤ r.parentId ∧ (chainOK rings 0 rings.length (rings.getD r.parentId.toNat default) &&
          (!false || decide ((rings.getD r.parentId.toNat default).parentId < 0))) = true then
          (((List.range r.parentId.toNat).filter (fun i =>
            chainOK rings 0 rings.length (rings.getD i default) &&
              (!false || decide ((rings.getD i default).parentId < 0)))).length : Int)
        else -1 } : Ring) = r := by
    intro r hr
    by_cases hneg : 0 ≤ r.parentId
    · rw [if_pos ⟨hneg, hkeep _⟩]
      rw [List.filter_eq_self.mpr (fun a _ => hkeep _)]
      rw [List.length_range, Int.toNat_of_nonneg hneg]
    · rw [if_neg (fun hc => hneg hc.1)]
      have : r.parentId = -1 := by
        have := hp r hr
        omega
      rw [← this]
  rw [List.map_congr_left hid]
  simp

theorem findParent_ge (rings : List Ring) (r : Ring) : -1 ≤ findParent rings r := by
  unfold findParent
  simp only
  rcases hfold : ((rings.enum.filter (fun ir =>
      decide (|shoelace r.pts| < |shoelace ir.2.pts|) &&
        ringContains ir.2 (holePoint r))).foldl (fun best ir =>
      match best with
      | none => some ir
      | some b => if |shoelace ir.2.pts| < |shoelace b.2.pts| then some ir else some b)
      none) with _ | ir
  · simp [hfold]
  · simp only [hfold]
    have := Int.natCast_nonneg ir.1
    omega

theorem assignParents_ge (rings : List Ring) (h0 : ∀ r ∈ rings, -1 ≤ r.parentId) :
    ∀ r2 ∈ assignParents rings, -1 ≤ r2.parentId := by
  intro r2 h
  unfold assignParents at h
  rw [List.mem_map] at h
  obtain ⟨r, hr, rfl⟩ := h
  by_cases hh : r.isHole = true
  · rw [if_pos hh]
    exact findParent_ge rings r
  · rw [if_neg hh]
    exact h0 r hr

theorem ringEdges_assignParents (rings : List Ring) :
    (assignParents rings).flatMap ringEdges = rings.flatMap ringEdges := by
  unfold assignParents
  rw [List.flatMap_map]
  apply List.flatMap_congr
  intro r _
  by_cases hh : r.isHole = true
  · rw [if_pos hh]
    rfl
  · rw [if_neg hh]

theorem traced_edges_perm (g : BitGrid) (w h : Nat) :
    ((traceMaskModel g w h 0 false).rings.flatMap ringEdges).Perm
      ((allCracks g).map crackSeg) := by
  unfold traceMaskModel
  simp only
  have hp : ∀ r ∈ assignParents ((extractLoops g).map ringOfLoop), -1 ≤ r.parentId := by
    apply assignParents_ge
    intro r hr
    rw [List.mem_map] at hr
    obtain ⟨L, _, rfl⟩ := hr
    exact le_refl _
  rw [filterRings_id _ hp, ringEdges_assignParents, List.flatMap_map]
  have hcong : ((extractLoops g).flatMap fun L => ringEdges (ringOfLoop L)) =
      (extractLoops g).flatMap (fun L => L.map crackSeg) := by
    apply List.flatMap_congr
    intro L hL
    obtain ⟨c, hbc, rfl⟩ := extractGo_mem g ((allCracks g).length) (allCracks g) rfl
      (fun c2 hc2 => (List.mem_filter.mp hc2).2) L hL
    exact ringEdges_of_loop g _ (loopAt_ne_nil g c) (loopAt_chain g c hbc)
      ((loopAt_closes g c hbc _).trans (loopAt_head g c hbc _).symm)
  rw [hcong]
  rw [show ((extractLoops g).flatMap fun L => L.map crackSeg) =
      ((extractLoops g).flatten).map crackSeg by
    rw [List.flatMap_def, ← List.map_flatten]]
  apply List.Perm.map
  exact extractGo_perm g ((allCracks g).length) (allCracks g) rfl (allCracks_nodup g)
    (fun c hc => (List.mem_filter.mp hc).2)
    (fun c hc x hx => by
      obtain ⟨i, rfl⟩ := hx
      exact mem_allCracks g _ (iter_bdry g c (List.mem_filter.mp hc).2 i))

theorem half_eq : half = 1 / 2 := by
  norm_num [half, Rat.mkRat_eq_div]

theorem lt_add_half_iff (a : Int) (b : Nat) : ((a : ℚ) < (b : ℚ) + half) ↔ a ≤ (b : Int) := by
  rw [half_eq]
  constructor
  · intro hlt
    by_contra hc
    push_neg at hc
    have h2 : ((b : Int) : ℚ) + 1 ≤ (a : ℚ) := by exact_mod_cast hc
    push_cast at h2
    linarith
  · intro hle
    have h2 : (a : ℚ) ≤ ((b : Int) : ℚ) := by exact_mod_cast hle
    push_cast at h2
    linarith

theorem add_half_lt_iff (a : Int) (b : Nat) : ((b : ℚ) + half < (a : ℚ)) ↔ (b : Int) < a := by
  rw [half_eq]
  constructor
  · intro hlt
    by_contra hc
    push_neg at hc
    have h2 : (a : ℚ) ≤ ((b : Int) : ℚ) := by exact_mod_cast hc
    push_cast at h2
    linarith
  · intro hle
    have h2 : ((b : Int) : ℚ) + 1 ≤ (a : ℚ) := by
      have : (b : Int) + 1 ≤ a := hle
      exact_mod_cast this
    push_cast at h2
    linarith

theorem add_half_lt_add_one_iff (a : Int) (b : Nat) :
    ((b : ℚ) + half < (a : ℚ) + 1) ↔ (b : Int) ≤ a := by
  rw [half_eq]
  constructor
  · intro hlt
    by_contra hc
    push_neg at hc
    have h2 : ((a : Int) : ℚ) + 1 ≤ (b : ℚ) := by exact_mod_cast hc
    push_cast at h2
    linarith
  · intro hle
    have h2 : (b : ℚ) ≤ ((a : Int) : ℚ) := by exact_mod_cast hle
    push_cast at h2
    linarith

theorem sub_one_lt_add_half_iff (a : Int) (b : Nat) :
    ((a : ℚ) - 1 < (b : ℚ) + half) ↔ a ≤ (b : Int) + 1 := by
  rw [half_eq]
  constructor
  · intro hlt
    by_contra hc
    push_neg at hc
    have h2 : ((b : Int) : ℚ) + 2 ≤ (a : ℚ) := by
      have : (b : Int) + 2 ≤ a := by omega
      exact_mod_cast this
    push_cast at h2
    linarith
  · intro hle
    have h2 : (a : ℚ) ≤ ((b : Int) : ℚ) + 1 := by
      have : a ≤ (b : Int) + 1 := hle
      exact_mod_cast this
    push_cast at h2
    linarith

theorem crackStart_eval (x y : Int) (d : Dir) :
    crackStart ⟨x, y, d⟩ = ((x : ℚ), (y : ℚ)) := rfl

theorem crackEnd_E (x y : Int) :
    crackEnd ⟨x, y, Dir.E⟩ = ((x : ℚ) + 1, (y : ℚ)) := by
  simp only [crackEnd, Dir.dx, Dir.dy, Prod.mk.injEq]
  constructor <;> push_cast <;> ring

theorem crackEnd_S (x y : Int) :
    crackEnd ⟨x, y, Dir.S⟩ = ((x : ℚ), (y : ℚ) + 1) := by
  simp only [crackEnd, Dir.dx, Dir.dy, Prod.mk.injEq]
  constructor <;> push_cast <;> ring

theorem crackEnd_W (x y : Int) :
    crackEnd ⟨x, y, Dir.W⟩ = ((x : ℚ) - 1, (y : ℚ)) := by
  simp only [crackEnd, Dir.dx, Dir.dy, Prod.mk.injEq]
  constructor <;> push_cast <;> ring

theorem crackEnd_N (x y : Int) :
    crackEnd ⟨x, y, Dir.N⟩ = ((x : ℚ), (y : ℚ) - 1) := by
  simp only [crackEnd, Dir.dx, Dir.dy, Prod.mk.injEq]
  constructor <;> push_cast <;> ring

/-- Which cracks cross the rightward ray from the center of pixel (px, py):
south-going cracks in row py and north-going cracks in row py (start row py+1),
strictly right of the pixel. -/
def crossPredB (px py : Nat) (c : Crack) : Bool :=
  (decide (c.d = Dir.S) && decide (c.y = (py : Int)) && decide ((px : Int) < c.x)) ||
  (decide (c.d = Dir.N) && decide (c.y = (py : Int) + 1) && decide ((px : Int) < c.x))

set_option maxHeartbeats 1600000 in
theorem crack_cross_iff (px py : Nat) (c : Crack) :
    segCrossesRay (crackStart c) (crackEnd c) (pixCenter px py) = crossPredB px py c := by
  obtain ⟨x, y, d⟩ := c
  rw [Bool.eq_iff_iff]
  cases d
  case E =>
    rw [crackStart_eval, crackEnd_E]
    simp only [segCrossesRay, pixCenter, crossPredB, Bool.and_eq_true, Bool.or_eq_true,
      decide_eq_true_eq]
    constructor
    · rintro ⟨h1 | h1, _⟩ <;> exact absurd (h1.1.trans h1.2) (lt_irrefl _)
    · rintro (h | h) <;> exact absurd h.1.1 (by simp)
  case W =>
    rw [crackStart_eval, crackEnd_W]
    simp only [segCrossesRay, pixCenter, crossPredB, Bool.and_eq_true, Bool.or_eq_true,
      decide_eq_true_eq]
    constructor
    · rintro ⟨h1 | h1, _⟩ <;> exact absurd (h1.1.trans h1.2) (lt_irrefl _)
    · rintro (h | h) <;> exact absurd h.1.1 (by simp)
  case S =>
    rw [crackStart_eval, crackEnd_S]
    simp only [segCrossesRay, pixCenter, crossPredB, Bool.and_eq_true, Bool.or_eq_true,
      decide_eq_true_eq, true_and]
    have hd : (0 : ℚ) < (y : ℚ) + 1 - (y : ℚ) := by linarith
    rw [if_pos hd, decide_eq_true_eq]
    have e1 : ((y : ℚ) + 1 - (y : ℚ)) = 1 := by ring
    have e2 : ((x : ℚ) - (x : ℚ)) = 0 := by ring
    rw [e1, e2, mul_one, mul_one, mul_zero, add_zero]
    constructor
    · rintro ⟨h1 | h1, h2⟩
      · left
        refine ⟨?_, (add_half_lt_iff x px).mp h2⟩
        have e3 : y ≤ (py : Int) := (lt_add_half_iff y py).mp h1.1
        have e4 : (py : Int) ≤ y := (add_half_lt_add_one_iff y py).mp h1.2
        omega
      · exfalso
        have := h1.1.trans h1.2
        linarith
    · rintro (⟨h2, h3⟩ | ⟨⟨h1, _⟩, _⟩)
      · refine ⟨.inl ⟨?_, ?_⟩, (add_half_lt_iff x px).mpr h3⟩
        · exact (lt_add_half_iff y py).mpr (by omega)
        · exact (add_half_lt_add_one_iff y py).mpr (by omega)
      · exact absurd h1 (by simp)
  case N =>
    rw [crackStart_eval, crackEnd_N]
    simp only [segCrossesRay, pixCenter, crossPredB, Bool.and_eq_true, Bool.or_eq_true,
      decide_eq_true_eq, true_and]
    have hd : ¬((0 : ℚ) < (y : ℚ) - 1 - (y : ℚ)) := by linarith
    rw [if_neg hd, decide_eq_true_eq]
    have e1 : ((y : ℚ) - 1 - (y : ℚ)) = -1 := by ring
    have e2 : ((x : ℚ) - (x : ℚ)) = 0 := by ring
    rw [e1, e2, mul_zero, add_zero, mul_neg_one, mul_neg_one, neg_lt_neg_iff]
    constructor
    · rintro ⟨h1 | h1, h2⟩
      · exfalso
        have := h1.1.trans h1.2
        linarith
      · right
        refine ⟨?_, (add_half_lt_iff x px).mp h2⟩
        have e3 : y ≤ (py : Int) + 1 := (sub_one_lt_add_half_iff y py).mp h1.1
        have e4 : (py : Int) < y := (add_half_lt_iff y py).mp h1.2
        omega
    · rintro (⟨⟨h1, _⟩, _⟩ | ⟨h2, h3⟩)
      · exact absurd h1 (by simp)
      · refine ⟨.inr ⟨?_, ?_⟩, (add_half_lt_iff x px).mpr h3⟩
        · exact (sub_one_lt_add_half_iff y py).mpr (by omega)
        · exact (add_half_lt_iff y py).mpr (by omega)

theorem countP_congrB {α : Type*} {p q : α → Bool} {l : List α}
    (h : ∀ a ∈ l, p a = q a) : l.countP p = l.countP q :=
  List.countP_congr (fun x hx => by rw [h x hx])

theorem countP_or_disjoint {α : Type*} (p q : α → Bool) (l : List α)
    (h : ∀ a ∈ l, ¬(p a = true ∧ q a = true)) :
    l.countP (fun a => p a || q a) = l.countP p + l.countP q := by
  induction l with
  | nil => simp
  | cons x xs ih =>
    have hx := h x (List.mem_cons_self x xs)
    have ih' := ih (fun a ha => h a (List.mem_cons_of_mem x ha))
    rw [List.countP_cons, List.countP_cons, List.countP_cons, ih']
    cases hp : p x <;> cases hq : q x <;> simp_all <;> omega

theorem countP_crack_shape (g : BitGrid) (px : Nat) (yv : Int) (d : Dir) :
    (allCracks g).countP (fun c => decide (c.d = d) && decide (c.y = yv) &&
        decide ((px : Int) < c.x))
      = (List.range (g.w + 1)).countP
          (fun a => decide (px < a) && isBdry g ⟨(a : Int), yv, d⟩) := by
  rw [List.countP_eq_length_filter, List.countP_eq_length_filter]
  have hperm : ((allCracks g).filter (fun c => decide (c.d = d) && decide (c.y = yv) &&
        decide ((px : Int) < c.x))).Perm
      (((List.range (g.w + 1)).filter
          (fun a => decide (px < a) && isBdry g ⟨(a : Int), yv, d⟩)).map
        (fun (a : Nat) => (⟨(a : Int), yv, d⟩ : Crack))) := by
    apply List.perm_of_nodup_nodup_toFinset_eq
    · exact (allCracks_nodup g).filter _
    · apply List.Nodup.map
      · intro a b hab
        simp only [Crack.mk.injEq] at hab
        exact_mod_cast hab.1
      · exact List.Nodup.filter _ (List.nodup_range _)
    · ext c
      simp only [List.mem_toFinset, List.mem_filter, List.mem_map, List.mem_range]
      constructor
      · rintro ⟨hmem, hp⟩
        obtain ⟨cx, cy, cd⟩ := c
        simp only [Bool.and_eq_true, decide_eq_true_eq] at hp
        obtain ⟨⟨hd, hy⟩, hx⟩ := hp
        have hbd : isBdry g ⟨cx, cy, cd⟩ = true := by
          rw [allCracks] at hmem
          exact List.of_mem_filter hmem
        have hrp : g.getb (Crack.rightPixel ⟨cx, cy, cd⟩).1
            (Crack.rightPixel ⟨cx, cy, cd⟩).2 = true := by
          rw [isBdry, Bool.and_eq_true] at hbd
          exact hbd.1
        have hb := getb_bounds g _ _ hrp
        have hxr : 0 ≤ cx ∧ cx ≤ (g.w : Int) := by
          cases cd <;> simp only [Crack.rightPixel] at hb <;> omega
        have hcast : ((cx.toNat : Nat) : Int) = cx := Int.toNat_of_nonneg hxr.1
        have hcrack : (⟨((cx.toNat : Nat) : Int), yv, d⟩ : Crack) = ⟨cx, cy, cd⟩ := by
          rw [Crack.mk.injEq]
          exact ⟨hcast, hy.symm, hd.symm⟩
        refine ⟨cx.toNat, ⟨?_, ?_⟩, hcrack⟩
        · omega
        · rw [Bool.and_eq_true, decide_eq_true_eq]
          refine ⟨by omega, ?_⟩
          rw [hcrack]
          exact hbd
      · rintro ⟨a, ⟨_, hq⟩, rfl⟩
        rw [Bool.and_eq_true, decide_eq_true_eq] at hq
        refine ⟨mem_allCracks g _ hq.2, ?_⟩
        simp only [Bool.and_eq_true, decide_eq_true_eq]
        refine ⟨⟨trivial, trivial⟩, ?_⟩
        exact_mod_cast hq.1
  rw [hperm.length_eq, List.length_map]

theorem isBdry_vertical (g : BitGrid) (a py : Nat) :
    (isBdry g ⟨(a : Int), (py : Int), Dir.S⟩ ||
        isBdry g ⟨(a : Int), (py : Int) + 1, Dir.N⟩)
      = (g.getb ((a : Int) - 1) (py : Int) != g.getb (a : Int) (py : Int)) := by
  have e1 : ((py : Int) + 1) - 1 = (py : Int) := by ring
  simp only [isBdry, Crack.rightPixel, Crack.leftPixel]
  rw [e1]
  cases hb1 : g.getb ((a : Int) - 1) (py : Int) <;>
    cases hb2 : g.getb (a : Int) (py : Int) <;> rfl

theorem isBdry_vertical_disjoint (g : BitGrid) (a py : Nat) :
    ¬(isBdry g ⟨(a : Int), (py : Int), Dir.S⟩ = true ∧
      isBdry g ⟨(a : Int), (py : Int) + 1, Dir.N⟩ = true) := by
  have e1 : ((py : Int) + 1) - 1 = (py : Int) := by ring
  simp only [isBdry, Crack.rightPixel, Crack.leftPixel]
  rw [e1]
  rintro ⟨h1, h2⟩
  rw [Bool.and_eq_true, Bool.not_eq_true'] at h1 h2
  rw [h1.1] at h2
  simp at h2

theorem countP_col_shift (w px : Nat) (q : Nat → Bool) :
    (List.range (w + 1)).countP (fun a => decide (px < a) && q a)
      = (List.range w).countP (fun e => decide (px ≤ e) && q (e + 1)) := by
  rw [List.range_succ_eq_map, List.countP_cons, List.countP_map]
  have h0 : (decide (px < 0) && q 0) = false := by simp
  rw [h0]
  simp only [Bool.false_eq_true, if_false, Nat.add_zero]
  apply countP_congrB
  intro e _
  simp only [Function.comp, Nat.succ_eq_add_one]
  have he : decide (px < e + 1) = decide (px ≤ e) := by simp [Nat.lt_succ_iff]
  rw [he]

theorem parity_step (f : Nat → Bool) (px : Nat) : ∀ n, px ≤ n →
    (List.range n).countP (fun e => decide (px ≤ e) && (f e != f (e + 1))) % 2
      = (if f px == f n then 0 else 1) := by
  intro n
  induction n with
  | zero =>
    intro h
    have h0 : px = 0 := Nat.le_zero.mp h
    subst h0
    simp
  | succ n ih =>
    intro h
    rcases Nat.lt_or_ge px (n + 1) with hlt | hge
    · have hpn : px ≤ n := Nat.lt_succ_iff.mp hlt
      have hA := ih hpn
      rw [List.range_succ, List.countP_append]
      simp only [List.countP_cons, List.countP_nil, Nat.zero_add]
      have hpred : (decide (px ≤ n) && (f n != f (n + 1))) = (f n != f (n + 1)) := by
        simp [hpn]
      rw [hpred]
      cases h1 : f px <;> cases h2 : f n <;> cases h3 : f (n + 1) <;>
        simp only [h1, h2, h3] at hA ⊢ <;> simp_all <;> omega
    · have hpe : px = n + 1 := le_antisymm h hge
      have hz : (List.range (n + 1)).countP
          (fun e => decide (px ≤ e) && (f e != f (e + 1))) = 0 := by
        rw [List.countP_eq_zero]
        intro e he
        rw [List.mem_range] at he
        simp [show ¬(px ≤ e) by omega]
      rw [hz]
      subst hpe
      simp

theorem getb_inbounds (g : BitGrid) (px py : Nat) (hpx : px < g.w) (hpy : py < g.h) :
    g.getb (px : Int) (py : Int) = g.data.getD (py * g.w + px) false := by
  rw [BitGrid.getb, if_pos]
  · simp
  · refine ⟨Int.natCast_nonneg px, ?_, Int.natCast_nonneg py, ?_⟩
    · exact_mod_cast hpx
    · exact_mod_cast hpy

theorem getb_right_oob (g : BitGrid) (py : Nat) :
    g.getb (g.w : Int) (py : Int) = false := by
  rw [BitGrid.getb, if_neg]
  rintro ⟨_, h2, _⟩
  exact absurd h2 (lt_irrefl _)

theorem crossCount_parity (g : BitGrid) (px py : Nat) (hpx : px < g.w) :
    crossCount (traceMaskModel g g.w g.h 0 false) (pixCenter px py) % 2
      = if g.getb (px : Int) (py : Int) = true then 1 else 0 := by
  have h1 : crossCount (traceMaskModel g g.w g.h 0 false) (pixCenter px py)
      = (allCracks g).countP (crossPredB px py) := by
    rw [crossCount, (traced_edges_perm g g.w g.h).countP_eq, List.countP_map]
    apply countP_congrB
    intro c _
    exact crack_cross_iff px py c
  rw [h1]
  have h2 : (allCracks g).countP (crossPredB px py)
      = (allCracks g).countP (fun c => decide (c.d = Dir.S) && decide (c.y = (py : Int)) &&
            decide ((px : Int) < c.x))
        + (allCracks g).countP (fun c => decide (c.d = Dir.N) &&
            decide (c.y = (py : Int) + 1) && decide ((px : Int) < c.x)) := by
    rw [show crossPredB px py = fun c =>
        (decide (c.d = Dir.S) && decide (c.y = (py : Int)) && decide ((px : Int) < c.x)) ||
        (decide (c.d = Dir.N) && decide (c.y = (py : Int) + 1) && decide ((px : Int) < c.x))
      from rfl]
    apply countP_or_disjoint
    rintro c _ ⟨hS, hN⟩
    simp only [Bool.and_eq_true, decide_eq_true_eq] at hS hN
    exact absurd (hS.1.1.symm.trans hN.1.1) (by simp)
  rw [h2, countP_crack_shape g px (py : Int) Dir.S,
    countP_crack_shape g px ((py : Int) + 1) Dir.N]
  have h3 : (List.range (g.w + 1)).countP
        (fun a => decide (px < a) && isBdry g ⟨(a : Int), (py : Int), Dir.S⟩)
      + (List.range (g.w + 1)).countP
        (fun a => decide (px < a) && isBdry g ⟨(a : Int), (py : Int) + 1, Dir.N⟩)
      = (List.range (g.w + 1)).countP (fun a => decide (px < a) &&
          (g.getb ((a : Int) - 1) (py : Int) != g.getb (a : Int) (py : Int))) := by
    rw [← countP_or_disjoint _ _ _ (fun a _ => ?_)]
    · apply countP_congrB
      intro a _
      cases hd : decide (px < a)
      · simp
      · simp only [Bool.true_and]
        exact isBdry_vertical g a py
    · rintro ⟨hS, hN⟩
      rw [Bool.and_eq_true] at hS hN
      exact isBdry_vertical_disjoint g a py ⟨hS.2, hN.2⟩
  rw [h3, countP_col_shift g.w px
    (fun (a : Nat) => g.getb ((a : Int) - 1) (py : Int) != g.getb (a : Int) (py : Int))]
  have hfin := parity_step (fun (a : Nat) => g.getb (a : Int) (py : Int)) px g.w
    (le_of_lt hpx)
  have h4 : (List.range g.w).countP (fun e =>
        decide (px ≤ e) && (g.getb (((e + 1 : Nat) : Int) - 1) (py : Int) !=
          g.getb ((e + 1 : Nat) : Int) (py : Int)))
      = (List.range g.w).countP (fun e =>
        decide (px ≤ e) && (g.getb ((e : Nat) : Int) (py : Int) !=
          g.getb (((e + 1 : Nat) : Int)) (py : Int))) := by
    apply countP_congrB
    intro e _
    have he : ((e + 1 : Nat) : Int) - 1 = (e : Int) := by push_cast; ring
    rw [he]
  rw [h4, hfin]
  have hfw : g.getb (g.w : Int) (py : Int) = false := getb_right_oob g py
  cases hfp : g.getb (px : Int) (py : Int) <;> simp [hfp, hfw]

/-- C2: round-trip identity.  For a well-formed BitGrid, rasterizing the traced
multipolygon (minimum ring area 0, holes kept, no erosion, bevel or pinch)
recovers the mask exactly: fill (trace mask 0 false) w h = mask. -/
theorem trace_fill_roundtrip (g : BitGrid) (hw : g.data.length = g.w * g.h) :
    fillModel (traceMaskModel g g.w g.h 0 false) g.w g.h = g := by
  obtain ⟨w, h, data⟩ := g
  dsimp only at hw ⊢
  simp only [fillModel, BitGrid.mk.injEq]
  refine ⟨trivial, trivial, ?_⟩
  apply List.ext_getElem
  · simpa using hw.symm
  · intro i h1 h2
    rw [List.getElem_map, List.getElem_range]
    have h2' : i < data.length := h2
    rw [hw] at h2
    have hw0 : 0 < w := by
      rcases Nat.eq_zero_or_pos w with h0 | h0
      · subst h0
        rw [Nat.zero_mul] at h2
        exact absurd h2 (Nat.not_lt_zero i)
      · exact h0
    have hpx : i % w < w := Nat.mod_lt _ hw0
    have hpy : i / w < h := by
      rw [Nat.div_lt_iff_lt_mul hw0, Nat.mul_comm h w]
      exact h2
    have hpar := crossCount_parity ⟨w, h, data⟩ (i % w) (i / w) hpx
    dsimp only at hpar
    have hgb : (BitGrid.mk w h data).getb ((i % w : Nat) : Int) ((i / w : Nat) : Int)
        = data[i] := by
      rw [getb_inbounds _ _ _ hpx hpy]
      have hidx : (i / w) * w + (i % w) = i := by
        rw [Nat.mul_comm]
        exact Nat.div_add_mod i w
      show data.getD ((i / w) * w + (i % w)) false = data[i]
      rw [hidx]
      exact List.getD_eq_getElem data false h2'
    rw [← hgb]
    cases hb : (BitGrid.mk w h data).getb ((i % w : Nat) : Int) ((i / w : Nat) : Int)
    · simp only [hb] at hpar
      simp only [Bool.false_eq_true, if_false] at hpar
      simp [hpar]
    · simp only [hb] at hpar
      simp only [if_pos] at hpar
      simp [hpar]

/-- Witness for the round-trip identity at a concrete 2×2 grid with one
foreground pixel. -/
theorem trace_fill_roundtrip_witness :
    (BitGrid.mk 2 2 [true, false, false, false]).data.length
        = (BitGrid.mk 2 2 [true, false, false, false]).w *
          (BitGrid.mk 2 2 [true, false, false, false]).h
      ∧ fillModel (traceMaskModel (BitGrid.mk 2 2 [true, false, false, false])
            (BitGrid.mk 2 2 [true, false, false, false]).w
            (BitGrid.mk 2 2 [true, false, false, false]).h 0 false)
          (BitGrid.mk 2 2 [true, false, false, false]).w
          (BitGrid.mk 2 2 [true, false, false, false]).h
        = BitGrid.mk 2 2 [true, false, false, false] :=
  ⟨rfl, trace_fill_roundtrip (BitGrid.mk 2 2 [true, false, false, false]) rfl⟩

end TraceOutline
